import Mathlib

/-!
Shallow embedding of pyumi's src/pyumi/umi_project.py (the UmiProject batch
ingestion pipeline, relational sidecar update, archive save/open, template
mapping and the extrusion helper geom_to_brep), together with theorems that
settle the frozen claims about the natural-language specification.

Conventions of the embedding:
* Python floats become rationals; numpy NaN / missing cells become none.
* A pandas GeoDataFrame becomes a Gdf: a list of column names plus a list of
  rows, each row holding an index label, a geometry and an association list of
  cells (none models both NaN and a missing entry).
* shapely geometries become Polygon (lists of vertices, rings stored without
  the closing duplicate point) wrapped in Geom, which also carries the parts
  list (MultiPolygon) and the external shapely is_valid verdict as a Bool.
* Raised Python exceptions (KeyError on a missing column, TypeError on a
  non-numeric height) become none in an Option-valued pipeline.
* External collaborators (CRS reprojection, the rhino3dm binary document, the
  zip container) are modelled at their interface: reprojection is the identity
  on the metric frame (in the open path project_gdf raises ValueError on an
  already-projected frame and the exception is swallowed, so the frame is
  unchanged), and the archive is the JSON mirror of the feature table that
  save writes and open re-ingests.
-/

set_option allowUnsafeReducibility true

attribute [local semireducible] Rat.add Rat.mul Rat.sub Rat.inv Rat.ofScientific

/-- A scalar cell value of the feature table: Python numbers, strings and
booleans.  numpy NaN (and a missing cell) is modelled as none at use sites. -/
inductive Val where
  | num (q : ℚ)
  | str (s : String)
  | bool (b : Bool)
deriving DecidableEq, Repr

/-- A planar point with rational coordinates. -/
structure Pt where
  x : ℚ
  y : ℚ
deriving DecidableEq, Repr

/-- A polygon with holes: an exterior ring and a list of interior rings.
Rings are vertex lists without the closing duplicate vertex. -/
structure Polygon where
  exterior : List Pt
  interiors : List (List Pt)
deriving DecidableEq, Repr

/-- A shapely geometry attached to a feature row: its polygon parts (one part
for a Polygon, several for a MultiPolygon) and the external shapely
is_valid verdict recorded as a boolean oracle. -/
structure Geom where
  parts : List Polygon
  valid : Bool
deriving DecidableEq, Repr

/-- One feature row of a GeoDataFrame: index label, geometry and the cells of
its attribute columns as an association list (first binding wins, as in a
pandas row; a value of none models NaN). -/
structure Row where
  idx : String
  geom : Geom
  cells : List (String × Option Val)
deriving DecidableEq, Repr

/-- A GeoDataFrame: its column names and its rows. -/
structure Gdf where
  cols : List String
  rows : List Row
deriving DecidableEq, Repr

/-- First binding for a key in an association list of cells. -/
def lookupCell (cells : List (String × Option Val)) (c : String) :
    Option (Option Val) :=
  match cells with
  | [] => none
  | (k, w) :: rest => if k = c then some w else lookupCell rest c

/-- Reads a cell of a row: none when the column is absent from the row or the
stored value is NaN. -/
def cellGet (r : Row) (c : String) : Option Val :=
  match lookupCell r.cells c with
  | some v => v
  | none => none

/-- Writes one cell of an association list, replacing the first binding with
the given key or appending a new binding. -/
def setCells (cells : List (String × Option Val)) (c : String) (v : Option Val) :
    List (String × Option Val) :=
  match cells with
  | [] => [(c, v)]
  | (k, w) :: rest => if k = c then (c, v) :: rest else (k, w) :: setCells rest c v

/-- Writes one cell of a row. -/
def setCell (r : Row) (c : String) (v : Option Val) : Row :=
  { r with cells := setCells r.cells c v }

/-- Appends a column name if it is not already present (pandas column
assignment on the frame level). -/
def addCol (cols : List String) (c : String) : List String :=
  if c ∈ cols then cols else cols ++ [c]

theorem lookupCell_setCells_same (cells : List (String × Option Val))
    (c : String) (v : Option Val) : lookupCell (setCells cells c v) c = some v := by
  induction cells with
  | nil => simp [setCells, lookupCell]
  | cons kv rest ih =>
    obtain ⟨k, w⟩ := kv
    by_cases h : k = c
    · simp [setCells, h, lookupCell]
    · simp [setCells, h, lookupCell, ih]

theorem lookupCell_setCells_other (cells : List (String × Option Val))
    (c c' : String) (v : Option Val) (h : c' ≠ c) :
    lookupCell (setCells cells c v) c' = lookupCell cells c' := by
  induction cells with
  | nil => simp [setCells, lookupCell, Ne.symm h]
  | cons kv rest ih =>
    obtain ⟨k, w⟩ := kv
    by_cases hk : k = c
    · subst hk
      simp [setCells, lookupCell, Ne.symm h, ih]
    · by_cases hk' : k = c'
      · subst hk'
        simp [setCells, hk, lookupCell]
      · simp [setCells, hk, lookupCell, hk', ih]

theorem cellGet_setCell_same (r : Row) (c : String) (v : Option Val) :
    cellGet (setCell r c v) c = v := by
  unfold setCell cellGet
  simp [lookupCell_setCells_same]

theorem cellGet_setCell_other (r : Row) (c c' : String) (v : Option Val)
    (h : c' ≠ c) : cellGet (setCell r c v) c' = cellGet r c' := by
  unfold setCell cellGet
  simp [lookupCell_setCells_other _ _ _ _ h]

theorem setCells_self (cells : List (String × Option Val)) (c : String)
    (h : lookupCell cells c = some v) : setCells cells c v = cells := by
  induction cells with
  | nil => simp [lookupCell] at h
  | cons kv rest ih =>
    obtain ⟨k, w⟩ := kv
    by_cases hk : k = c
    · subst hk
      simp [lookupCell] at h
      simp [setCells, h]
    · simp [lookupCell, hk] at h
      simp [setCells, hk, ih h]

/-- setCell with the value the row already holds in an existing binding is the
identity on the row. -/
theorem setCell_self (r : Row) (c : String) (h : lookupCell r.cells c = some v) :
    setCell r c v = r := by
  unfold setCell
  rw [setCells_self r.cells c h]

/-- Translation of a point by an offset vector (shapely translate). -/
def translatePt (v p : Pt) : Pt := ⟨p.x + v.x, p.y + v.y⟩

/-- Negation of a point, used for the offset -(xoff, yoff) of from_gdf. -/
def negPt (p : Pt) : Pt := ⟨-p.x, -p.y⟩

theorem translatePt_x (v p : Pt) : (translatePt v p).x = p.x + v.x := rfl

theorem translatePt_y (v p : Pt) : (translatePt v p).y = p.y + v.y := rfl

/-- The list of consecutive vertex pairs of a ring, cyclically (the last
vertex pairs with the first). -/
def cyclicPairs (l : List Pt) : List (Pt × Pt) := l.zip (l.rotate 1)

/-- Sum of a two-point function over the cyclic vertex pairs of a ring: the
building block of the shoelace area and centroid formulas. -/
def pairSum (g : Pt → Pt → ℚ) (l : List Pt) : ℚ :=
  ((cyclicPairs l).map (fun ab => g ab.1 ab.2)).sum

theorem listSumMapAdd (f g : α → ℚ) (l : List α) :
    (l.map (fun x => f x + g x)).sum = (l.map f).sum + (l.map g).sum := by
  induction l with
  | nil => simp
  | cons a tl ih => simp [ih]; ring

theorem listSumMapMul (c : ℚ) (f : α → ℚ) (l : List α) :
    (l.map (fun x => c * f x)).sum = c * (l.map f).sum := by
  induction l with
  | nil => simp
  | cons a tl ih => simp [ih]; ring

theorem cyclicPairs_map (T : Pt → Pt) (l : List Pt) :
    cyclicPairs (l.map T) = (cyclicPairs l).map (Prod.map T T) := by
  unfold cyclicPairs
  rw [← List.map_rotate, List.zip_map]

theorem pairSum_mapT (g : Pt → Pt → ℚ) (T : Pt → Pt) (l : List Pt) :
    pairSum g (l.map T) = pairSum (fun a b => g (T a) (T b)) l := by
  unfold pairSum
  rw [cyclicPairs_map, List.map_map]
  rfl

theorem pairSum_add (g h : Pt → Pt → ℚ) (l : List Pt) :
    pairSum (fun a b => g a b + h a b) l = pairSum g l + pairSum h l :=
  listSumMapAdd _ _ _

theorem pairSum_mul (c : ℚ) (g : Pt → Pt → ℚ) (l : List Pt) :
    pairSum (fun a b => c * g a b) l = c * pairSum g l :=
  listSumMapMul _ _ _

theorem pairSum_fst (f : Pt → ℚ) (l : List Pt) :
    pairSum (fun a _ => f a) l = (l.map f).sum := by
  unfold pairSum cyclicPairs
  have h1 : ((l.zip (l.rotate 1)).map (fun ab => f ab.1)) =
      ((l.zip (l.rotate 1)).map Prod.fst).map f := by
    rw [List.map_map]; rfl
  rw [h1, List.map_fst_zip l (l.rotate 1) (by simp [List.length_rotate])]

theorem pairSum_snd (f : Pt → ℚ) (l : List Pt) :
    pairSum (fun _ b => f b) l = (l.map f).sum := by
  unfold pairSum cyclicPairs
  have h1 : ((l.zip (l.rotate 1)).map (fun ab => f ab.2)) =
      ((l.zip (l.rotate 1)).map Prod.snd).map f := by
    rw [List.map_map]; rfl
  rw [h1, List.map_snd_zip l (l.rotate 1) (by simp [List.length_rotate])]
  exact ((l.rotate_perm 1).map f).sum_eq

theorem pairSum_sub (g h : Pt → Pt → ℚ) (l : List Pt) :
    pairSum (fun a b => g a b - h a b) l = pairSum g l - pairSum h l := by
  have e : (fun (a b : Pt) => g a b - h a b) =
      fun a b => g a b + (-1 : ℚ) * h a b := by
    funext a b; ring
  rw [e, pairSum_add, pairSum_mul]
  ring

/-- Cyclic telescoping: summing f at the first component minus f at the second
component of consecutive pairs gives zero. -/
theorem pairSum_telescope (f : Pt → ℚ) (l : List Pt) :
    pairSum (fun a b => f a - f b) l = 0 := by
  rw [pairSum_sub, pairSum_fst, pairSum_snd]
  ring

/-- Twice the signed shoelace area of a ring (vertex list without closing
duplicate). -/
def ringA2 (l : List Pt) : ℚ := pairSum (fun a b => a.x * b.y - b.x * a.y) l

/-- Shoelace centroid numerator sum for the x coordinate. -/
def ringSx (l : List Pt) : ℚ :=
  pairSum (fun a b => (a.x + b.x) * (a.x * b.y - b.x * a.y)) l

/-- Shoelace centroid numerator sum for the y coordinate. -/
def ringSy (l : List Pt) : ℚ :=
  pairSum (fun a b => (a.y + b.y) * (a.x * b.y - b.x * a.y)) l

/-- Area centroid of a ring, the shapely centroid of a simple polygon. -/
def ringCentroid (l : List Pt) : Pt :=
  ⟨ringSx l / (3 * ringA2 l), ringSy l / (3 * ringA2 l)⟩

theorem ringA2_translate (v : Pt) (l : List Pt) :
    ringA2 (l.map (translatePt v)) = ringA2 l := by
  unfold ringA2
  rw [pairSum_mapT]
  have e : (fun a b => (translatePt v a).x * (translatePt v b).y -
      (translatePt v b).x * (translatePt v a).y) =
      fun (a b : Pt) => (a.x * b.y - b.x * a.y) +
        (v.y * ((fun p : Pt => p.x) a - (fun p : Pt => p.x) b) +
          v.x * ((fun p : Pt => p.y) b - (fun p : Pt => p.y) a)) := by
    funext a b
    simp only [translatePt_x, translatePt_y]
    ring
  rw [e, pairSum_add, pairSum_add]
  have h1 : pairSum (fun a b => v.y * ((fun p : Pt => p.x) a - (fun p : Pt => p.x) b)) l = 0 := by
    rw [pairSum_mul, pairSum_telescope]; ring
  have h2 : pairSum (fun a b => v.x * ((fun p : Pt => p.y) b - (fun p : Pt => p.y) a)) l = 0 := by
    have e2 : (fun (a b : Pt) => v.x * ((fun p : Pt => p.y) b - (fun p : Pt => p.y) a)) =
        fun (a b : Pt) => (-v.x) * ((fun p : Pt => p.y) a - (fun p : Pt => p.y) b) := by
      funext a b; ring
    rw [e2, pairSum_mul, pairSum_telescope]; ring
  rw [h1, h2]
  ring

theorem ringSx_translate (v : Pt) (l : List Pt) :
    ringSx (l.map (translatePt v)) = ringSx l + 3 * v.x * ringA2 l := by
  unfold ringSx ringA2
  rw [pairSum_mapT]
  have e : (fun a b => ((translatePt v a).x + (translatePt v b).x) *
      ((translatePt v a).x * (translatePt v b).y -
        (translatePt v b).x * (translatePt v a).y)) =
      fun (a b : Pt) => ((a.x + b.x) * (a.x * b.y - b.x * a.y)) +
        (v.y * ((fun p : Pt => p.x * p.x) a - (fun p : Pt => p.x * p.x) b) +
          (v.x * ((a.x * b.y - b.x * a.y) -
            ((fun p : Pt => p.x * p.y) a - (fun p : Pt => p.x * p.y) b)) +
            (2 * v.x * (a.x * b.y - b.x * a.y) +
              (2 * v.x * v.y * ((fun p : Pt => p.x) a - (fun p : Pt => p.x) b) +
                (-(2 * v.x * v.x)) *
                  ((fun p : Pt => p.y) a - (fun p : Pt => p.y) b))))) := by
    funext a b
    simp only [translatePt_x, translatePt_y]
    ring
  rw [e, pairSum_add, pairSum_add, pairSum_add, pairSum_add, pairSum_add]
  rw [pairSum_mul, pairSum_mul, pairSum_mul, pairSum_mul, pairSum_mul]
  rw [pairSum_telescope, pairSum_telescope, pairSum_telescope]
  rw [pairSum_sub, pairSum_telescope]
  ring

theorem ringSy_translate (v : Pt) (l : List Pt) :
    ringSy (l.map (translatePt v)) = ringSy l + 3 * v.y * ringA2 l := by
  unfold ringSy ringA2
  rw [pairSum_mapT]
  have e : (fun a b => ((translatePt v a).y + (translatePt v b).y) *
      ((translatePt v a).x * (translatePt v b).y -
        (translatePt v b).x * (translatePt v a).y)) =
      fun (a b : Pt) => ((a.y + b.y) * (a.x * b.y - b.x * a.y)) +
        (v.y * ((a.x * b.y - b.x * a.y) +
            ((fun p : Pt => p.x * p.y) a - (fun p : Pt => p.x * p.y) b)) +
          ((-v.x) * ((fun p : Pt => p.y * p.y) a - (fun p : Pt => p.y * p.y) b) +
            (2 * v.y * (a.x * b.y - b.x * a.y) +
              (2 * v.y * v.y * ((fun p : Pt => p.x) a - (fun p : Pt => p.x) b) +
                (-(2 * v.y * v.x)) *
                  ((fun p : Pt => p.y) a - (fun p : Pt => p.y) b))))) := by
    funext a b
    simp only [translatePt_x, translatePt_y]
    ring
  rw [e, pairSum_add, pairSum_add, pairSum_add, pairSum_add, pairSum_add]
  rw [pairSum_mul, pairSum_mul, pairSum_mul, pairSum_mul, pairSum_mul]
  rw [pairSum_telescope, pairSum_telescope, pairSum_telescope]
  have hadd : pairSum (fun a b => (a.x * b.y - b.x * a.y) +
      ((fun p : Pt => p.x * p.y) a - (fun p : Pt => p.x * p.y) b)) l =
      pairSum (fun a b => a.x * b.y - b.x * a.y) l := by
    rw [pairSum_add, pairSum_telescope]
    ring
  rw [hadd]
  ring

/-- The shapely area centroid commutes with translation whenever the ring is
nondegenerate (nonzero shoelace area). -/
theorem ringCentroid_translate (v : Pt) (l : List Pt) (h : ringA2 l ≠ 0) :
    ringCentroid (l.map (translatePt v)) = translatePt v (ringCentroid l) := by
  unfold ringCentroid
  rw [ringSx_translate, ringSy_translate, ringA2_translate]
  unfold translatePt
  have h3 : (3 : ℚ) * ringA2 l ≠ 0 := by
    intro hc
    rcases mul_eq_zero.mp hc with h0 | h0
    · norm_num at h0
    · exact h h0
  congr 1
  · field_simp
    ring
  · field_simp
    ring

/-- Lexicographic comparison of points by (x, y), used to sort vertices for
the monotone-chain convex hull (model of shapely convex_hull). -/
def lexLe (a b : Pt) : Bool :=
  if a.x < b.x then true
  else if a.x = b.x then decide (a.y ≤ b.y)
  else false

/-- Insertion into a lexicographically sorted list of points. -/
def ptInsert (a : Pt) : List Pt → List Pt
  | [] => [a]
  | b :: bs => if lexLe a b then a :: b :: bs else b :: ptInsert a bs

/-- Insertion sort of points by the lexicographic order. -/
def ptSort : List Pt → List Pt
  | [] => []
  | a :: rest => ptInsert a (ptSort rest)

/-- Cross product of the vectors o→a and o→b: the left/right-turn test of the
monotone-chain hull construction. -/
def crossO (o a b : Pt) : ℚ :=
  (a.x - o.x) * (b.y - o.y) - (a.y - o.y) * (b.x - o.x)

/-- Pushes a point onto a chain stack (head of the list is the stack top),
popping points that would make a non-left turn. -/
def chainPush (p : Pt) : List Pt → List Pt
  | a :: b :: rest => if crossO b a p ≤ 0 then chainPush p (b :: rest)
                      else p :: a :: b :: rest
  | l => p :: l

/-- Builds one hull chain over a point list, in traversal order. -/
def chainFold (pts : List Pt) : List Pt :=
  (pts.foldl (fun st p => chainPush p st) []).reverse

/-- Monotone-chain convex hull: vertices of the hull in counter-clockwise
order, without the closing duplicate (model of shapely convex_hull of a
geometry collection: the hull of a union of polygons is the hull of all their
vertices). -/
def unionHull (pts : List Pt) : List Pt :=
  match ptSort pts with
  | [] => []
  | [p] => [p]
  | s => chainFold s ++ (chainFold s.reverse).drop 1 |>.dropLast

theorem lexLe_translate (v : Pt) (a b : Pt) :
    lexLe (translatePt v a) (translatePt v b) = lexLe a b := by
  unfold lexLe
  simp only [translatePt_x, translatePt_y, add_lt_add_iff_right, add_left_inj,
    add_le_add_iff_right]

theorem ptInsert_translate (v : Pt) (a : Pt) (l : List Pt) :
    ptInsert (translatePt v a) (l.map (translatePt v)) =
      (ptInsert a l).map (translatePt v) := by
  induction l with
  | nil => simp [ptInsert]
  | cons b bs ih =>
    simp only [List.map_cons, ptInsert, lexLe_translate]
    by_cases h : lexLe a b
    · simp [h]
    · simp [h, ih]

theorem ptSort_translate (v : Pt) (l : List Pt) :
    ptSort (l.map (translatePt v)) = (ptSort l).map (translatePt v) := by
  induction l with
  | nil => simp [ptSort]
  | cons a rest ih =>
    simp only [List.map_cons, ptSort, ih, ptInsert_translate]

theorem crossO_translate (v o a b : Pt) :
    crossO (translatePt v o) (translatePt v a) (translatePt v b) = crossO o a b := by
  unfold crossO
  simp only [translatePt_x, translatePt_y]
  ring

theorem chainPush_translate (v p : Pt) (st : List Pt) :
    chainPush (translatePt v p) (st.map (translatePt v)) =
      (chainPush p st).map (translatePt v) := by
  induction st with
  | nil => simp [chainPush]
  | cons a tl ih =>
    cases tl with
    | nil => simp [chainPush]
    | cons b rest =>
      simp only [List.map_cons, chainPush, crossO_translate]
      by_cases h : crossO b a p ≤ 0
      · simp only [h, if_true]
        simpa using ih
      · simp [h]

theorem chainFoldAux_translate (v : Pt) (l st : List Pt) :
    (l.map (translatePt v)).foldl (fun st p => chainPush p st)
        (st.map (translatePt v)) =
      (l.foldl (fun st p => chainPush p st) st).map (translatePt v) := by
  induction l generalizing st with
  | nil => simp
  | cons p tl ih =>
    simp only [List.map_cons, List.foldl_cons]
    rw [chainPush_translate, ih]

theorem chainFold_translate (v : Pt) (l : List Pt) :
    chainFold (l.map (translatePt v)) = (chainFold l).map (translatePt v) := by
  unfold chainFold
  have h := chainFoldAux_translate v l []
  simp only [List.map_nil] at h
  rw [h, List.map_reverse]

theorem unionHull_translate (v : Pt) (l : List Pt) :
    unionHull (l.map (translatePt v)) = (unionHull l).map (translatePt v) := by
  unfold unionHull
  rw [ptSort_translate]
  cases hs : ptSort l with
  | nil => simp
  | cons p tl =>
    cases tl with
    | nil => simp
    | cons q rest =>
      simp only [List.map_cons]
      have h1 : chainFold (translatePt v p :: translatePt v q ::
          rest.map (translatePt v)) =
          (chainFold (p :: q :: rest)).map (translatePt v) := by
        have := chainFold_translate v (p :: q :: rest)
        simpa using this
      have h2 : chainFold ((translatePt v p :: translatePt v q ::
          rest.map (translatePt v)).reverse) =
          (chainFold ((p :: q :: rest).reverse)).map (translatePt v) := by
        have := chainFold_translate v ((p :: q :: rest).reverse)
        simpa [List.map_reverse] using this
      rw [h1, h2, ← List.map_drop, ← List.map_append, ← List.map_dropLast]

/-- Translation of a polygon (exterior and interior rings). -/
def translatePoly (v : Pt) (p : Polygon) : Polygon :=
  ⟨p.exterior.map (translatePt v), p.interiors.map (List.map (translatePt v))⟩

/-- Translation of a geometry: every part is translated, validity is
unchanged (shapely translate is a rigid motion). -/
def translateGeom (v : Pt) (g : Geom) : Geom :=
  ⟨g.parts.map (translatePoly v), g.valid⟩

/-- Translation of a feature row: only the geometry moves. -/
def translateRow (v : Pt) (r : Row) : Row :=
  { r with geom := translateGeom v r.geom }

/-- Translation of a whole GeoDataFrame (gdf.translate(xoff, yoff)). -/
def translateGdf (v : Pt) (g : Gdf) : Gdf :=
  ⟨g.cols, g.rows.map (translateRow v)⟩

/-- All vertices of a polygon (exterior ring and interior rings). -/
def polyPts (p : Polygon) : List Pt :=
  p.exterior ++ p.interiors.flatMap (fun r => r)

/-- All vertices of a geometry. -/
def geomPts (g : Geom) : List Pt := g.parts.flatMap polyPts

/-- All vertices of a collection of features:  the convex hull of the
unary_union of the collection is the convex hull of this point set. -/
def allPts (g : Gdf) : List Pt := g.rows.flatMap (fun r => geomPts r.geom)

/-- shapely unary_union.convex_hull.centroid of a feature collection, the
quantity from_gdf subtracts from every coordinate. -/
def hullCentroidOf (g : Gdf) : Pt := ringCentroid (unionHull (allPts g))

theorem polyPts_translate (v : Pt) (p : Polygon) :
    polyPts (translatePoly v p) = (polyPts p).map (translatePt v) := by
  unfold polyPts translatePoly
  simp [List.map_flatMap, List.flatMap_map]

theorem geomPts_translate (v : Pt) (g : Geom) :
    geomPts (translateGeom v g) = (geomPts g).map (translatePt v) := by
  unfold geomPts translateGeom
  simp only [List.flatMap_map, List.map_flatMap]
  apply List.flatMap_congr ?_
  intro p _
  exact polyPts_translate v p

theorem allPts_translate (v : Pt) (g : Gdf) :
    allPts (translateGdf v g) = (allPts g).map (translatePt v) := by
  unfold allPts translateGdf
  simp only [List.flatMap_map, List.map_flatMap]
  apply List.flatMap_congr ?_
  intro r _
  exact geomPts_translate v r.geom

/-- The degeneracy threshold 1e-12 of geom_to_brep. -/
def epsHeight : ℚ := 1 / 10 ^ 12

/-- The solid produced by a successful extrusion: its (oriented) footprint
polygon and its vertical extent. -/
structure Brep where
  footprint : Polygon
  height : ℚ
deriving DecidableEq, Repr

/-- shapely.geometry.polygon.orient with sign=1.0: the exterior ring gets
counter-clockwise (nonnegative signed-area) orientation and interior rings
the opposite one. -/
def orientPoly (p : Polygon) : Polygon :=
  ⟨if ringA2 p.exterior < 0 then p.exterior.reverse else p.exterior,
   p.interiors.map (fun r => if 0 < ringA2 r then r.reverse else r)⟩

/-- The rhino3dm PolylineCurve constructor: always returns an object, never
Python None (the source still guards against None). -/
def mkPolylineCurve (ring : List Pt) : Option (List Pt) := some ring

/-- geom_to_brep on a feature with polygon geometry and numeric height.
Mirrors the source guards: the outer profile None check together with
height <= 1e-12; then Plane.WorldXY (always truthy, so no branch); then the
vertical path Line((0,0,0),(0,0,height)), invalid when degenerate
(equal endpoints) or of length <= 1e-12.  The degenerate result np.NaN is
modelled as none. -/
def geom_to_brep (poly : Polygon) (height : ℚ) : Option Brep :=
  let g := orientPoly poly
  let outerProfile := mkPolylineCurve g.exterior
  if outerProfile.isNone ∨ height ≤ epsHeight then none
  else if ¬height ≠ 0 ∨ |height| ≤ epsHeight then none
  else some ⟨g, height⟩

theorem geom_to_brep_degenerate (poly : Polygon) (height : ℚ)
    (h : height ≤ epsHeight) : geom_to_brep poly height = none := by
  unfold geom_to_brep
  simp [h]

theorem geom_to_brep_tall (poly : Polygon) (height : ℚ)
    (h : epsHeight < height) :
    geom_to_brep poly height = some ⟨orientPoly poly, height⟩ := by
  have hpos : (0 : ℚ) < height := lt_trans (by norm_num [epsHeight]) h
  have habs : ¬|height| ≤ epsHeight := by
    rw [abs_of_pos hpos]
    exact not_le.mpr h
  unfold geom_to_brep
  simp [not_le.mpr h, mkPolylineCurve, ne_of_gt hpos, habs]

theorem geom_to_brep_some_height (poly : Polygon) (height : ℚ) (b : Brep)
    (h : geom_to_brep poly height = some b) :
    epsHeight < b.height ∧ b.height = height := by
  by_cases hle : height ≤ epsHeight
  · rw [geom_to_brep_degenerate poly height hle] at h
    exact absurd h (by simp)
  · rw [geom_to_brep_tall poly height (not_le.mp hle)] at h
    have hb : b = ⟨orientPoly poly, height⟩ := by
      exact (Option.some.injEq _ _).mp h.symm
    subst hb
    exact ⟨not_le.mp hle, rfl⟩

/-- UmiProject.DEFAULT_SHOEBOX_SETTINGS in dict insertion order; the
TemplateName default np.NaN is modelled none. -/
def DEFAULT_SHOEBOX_SETTINGS : List (String × Option Val) :=
  [("CoreDepth", some (.num 3)),
   ("Envr", some (.num 1)),
   ("Fdist", some (.num (1 / 100))),
   ("FloorToFloorHeight", some (.num 3)),
   ("PerimeterOffset", some (.num 3)),
   ("RoomWidth", some (.num 3)),
   ("WindowToWallRatioE", some (.num (2 / 5))),
   ("WindowToWallRatioN", some (.num (2 / 5))),
   ("WindowToWallRatioRoof", some (.num 0)),
   ("WindowToWallRatioS", some (.num (2 / 5))),
   ("WindowToWallRatioW", some (.num (2 / 5))),
   ("TemplateName", none),
   ("EnergySimulatorName", some (.str "UMI Shoeboxer (default)")),
   ("FloorToFloorStrict", some (.bool true))]

/-- The recognized shoebox setting names, in schema order. -/
def schemaCols : List String := DEFAULT_SHOEBOX_SETTINGS.map Prod.fst

/-- The nonplot_settings list of update_umi_sqlite3. -/
def nonplotSettings : List String :=
  ["TemplateName", "EnergySimulatorName", "FloorToFloorStrict"]

/-- The plottable melt columns: recognized settings not in nonplot_settings,
in dict order. -/
def plotCols : List String :=
  schemaCols.filter (fun c => decide (c ∉ nonplotSettings))

/-- The non-plottable melt columns. -/
def nonplotCols : List String := nonplotSettings

/-- The first phase of add_default_shoebox_settings: assign a whole constant
column for every recognized setting absent from the frame. -/
def addMissingColumns (g : Gdf) : Gdf :=
  DEFAULT_SHOEBOX_SETTINGS.foldl
    (fun acc ad =>
      if ad.1 ∈ acc.cols then acc
      else ⟨acc.cols ++ [ad.1], acc.rows.map (fun r => setCell r ad.1 ad.2)⟩)
    g

/-- The second phase of add_default_shoebox_settings: fillna with the default
dict (a NaN cell receives the default; the TemplateName default is itself
NaN). -/
def fillRow (r : Row) : Row :=
  DEFAULT_SHOEBOX_SETTINGS.foldl
    (fun r ad => if cellGet r ad.1 = none then setCell r ad.1 ad.2 else r) r

/-- UmiProject.add_default_shoebox_settings. -/
def add_default_shoebox_settings (g : Gdf) : Gdf :=
  let g1 := addMissingColumns g
  ⟨g1.cols, g1.rows.map fillRow⟩

/-- A row of one of the two setting tables of umi.sqlite3 as written by
update_umi_sqlite3: the melt index as key, the object guid as text, the
setting name and its value. -/
structure SettingRec where
  key : ℕ
  object_id : String
  name : String
  value : Val
deriving DecidableEq, Repr

/-- The relational sidecar state relevant to the claims: the two setting
tables. -/
structure Db where
  plottable : List SettingRec
  nonplottable : List SettingRec
deriving DecidableEq, Repr

/-- Python str() of a cell, used for the guid text and object names. -/
def valStr : Option Val → String
  | some (.str s) => s
  | some (.num q) => toString q.num
  | some (.bool b) => toString b
  | none => "nan"

/-- pandas melt of the given settings columns against guid, before dropna:
column-major, one record (object_id, name, value) per (column, row). -/
def meltRecs (cols : List String) (g : Gdf) : List (String × String × Option Val) :=
  cols.flatMap (fun c =>
    g.rows.map (fun r => (valStr (cellGet r "guid"), c, cellGet r c)))

/-- Assigns the pre-dropna positional index as the key column and drops
records with a NaN value, as in melt, dropna(subset=value) and
to_sql(index_label=key). -/
def addKeys : ℕ → List (String × String × Option Val) → List SettingRec
  | _, [] => []
  | i, (oid, c, v?) :: rest =>
    match v? with
    | none => addKeys (i + 1) rest
    | some v => ⟨i, oid, c, v⟩ :: addKeys (i + 1) rest

/-- pandas DataFrame.to_sql with if_exists="replace": the existing table is
dropped together with its schema (including the original primary key) and
exactly the supplied rows are written. -/
def toSqlReplace (_prev rows : List SettingRec) : List SettingRec := rows

/-- UmiProject.update_umi_sqlite3: re-derives both setting tables from the
current feature table, replacing their full contents; none models the
KeyError when a required column is absent from the frame. -/
def update_umi_sqlite3 (g : Gdf) (db : Db) : Option Db :=
  if (plotCols ++ nonplotCols ++ ["guid"]).all (fun c => g.cols.contains c) then
    some ⟨toSqlReplace db.plottable (addKeys 0 (meltRecs plotCols g)),
          toSqlReplace db.nonplottable (addKeys 0 (meltRecs nonplotCols g))⟩
  else none

/-- A geometry-document object: minted identifier, layer path and name.  The
shape payload (brep or curve) is not inspected by any claim, so it is not
carried. -/
structure Obj where
  oid : String
  layer : String
  name : String
deriving DecidableEq, Repr

/-- The UmiProject state the claims are about: the retained pre-translation
metric copy, the working feature table, the geometry-document objects and
the relational sidecar. -/
structure UmiProject where
  gdf_world_projected : Gdf
  gdf_3dm : Gdf
  objects : List Obj
  db : Db
deriving DecidableEq, Repr

/-- from_gdf step 1: keep rows with valid geometry; one warning is emitted
when any row is dropped. -/
def filterValidGeoms (g : Gdf) : Gdf × ℕ :=
  (⟨g.cols, g.rows.filter (fun r => r.geom.valid)⟩,
   if g.rows.any (fun r => !r.geom.valid) then 1 else 0)

/-- from_gdf step 2: keep rows with a non-NaN height attribute; none models
the KeyError when the height column is absent from the frame. -/
def filterValidAttrs (hcol : String) (g : Gdf) : Option (Gdf × ℕ) :=
  if g.cols.contains hcol then
    some (⟨g.cols, g.rows.filter (fun r => (cellGet r hcol).isSome)⟩,
          if g.rows.any (fun r => (cellGet r hcol).isNone) then 1 else 0)
  else none

/-- from_gdf fid handling: a caller-supplied fid column name is used as-is;
otherwise an existing fid column is reused, else a serial fid column is
created from the index. -/
def fidStage (fid? : Option String) (g : Gdf) : String × Gdf :=
  match fid? with
  | some f => (f, g)
  | none =>
    if g.cols.contains "fid" then ("fid", g)
    else ("fid", ⟨g.cols ++ ["fid"],
      g.rows.map (fun r => setCell r "fid" (some (.str r.idx)))⟩)

/-- gdf.explode(): one single-part row per polygon part. -/
def explodeGdf (g : Gdf) : Gdf :=
  ⟨g.cols, g.rows.flatMap (fun r =>
    r.geom.parts.map (fun p => { r with geom := ⟨[p], r.geom.valid⟩ }))⟩

/-- The centering translation of from_gdf: translate by the negated centroid
of the convex hull of the unary union of the projected collection. -/
def centerStage (g : Gdf) : Gdf := translateGdf (negPt (hullCentroidOf g)) g

/-- gdf.progress_apply(geom_to_brep): computes the brep of each row,
keeping the row.  none models the TypeError (non-numeric height) or
AttributeError (geometry without an exterior ring) the raw apply would
raise; neither occurs in the pipeline after its filters. -/
def brepStage (hcol : String) (g : Gdf) : Option (List (Row × Option Brep)) :=
  g.rows.mapM (fun r =>
    match cellGet r hcol, r.geom.parts with
    | some (.num q), [p] => some (r, geom_to_brep p q)
    | _, _ => none)

/-- Dropping rows whose brep creation produced np.NaN; one warning is
emitted when any row is dropped. -/
def filterErrored (l : List (Row × Option Brep)) : List (Row × Brep) × ℕ :=
  (l.filterMap (fun rb => rb.2.map (fun b => (rb.1, b))),
   if l.any (fun rb => rb.2.isNone) then 1 else 0)

/-- The identifier minted by File3dm.Objects.AddBrep/AddCurve for the i-th
added object: a fresh 128-bit uuid, modelled as a serial tag. -/
def mintGuid (i : ℕ) : String := "uuid-" ++ String.mk (List.replicate i 'x')

/-- gdf["guid"] = rhino object ids: the guid cell of every surviving row is
written (column added or overwritten). -/
def guidRows (l : List (Row × Brep)) : List Row :=
  l.enum.map (fun ib => setCell ib.2.1 "guid" (some (.str (mintGuid ib.1))))

/-- The building objects of the 3dm document: on the umi::Buildings layer,
named from the fid column of the row carrying the same guid. -/
def buildingObjs (fid : String) (rows : List Row) : List Obj :=
  rows.map (fun r =>
    ⟨valStr (cellGet r "guid"), "umi::Buildings", valStr (cellGet r fid)⟩)

/-- add_site_boundary: one PolylineCurve object over the convex hull of all
footprints, on the Site boundary layer (the curve payload is not inspected
by any claim). -/
def siteBoundaryObj (n : ℕ) : Obj :=
  ⟨mintGuid n, "umi::Context::Site boundary", "Convex hull boundary"⟩

/-- UmiProject.from_gdf: the batch ingestion pipeline.  Returns the project
and the number of warnings emitted, or none when the pipeline raises
(missing height or fid column, non-numeric height).  Reprojection to the
world and metric frames is the external projection service: the metric
frame equals the input frame (from_gdf inputs are projected; in the open
path the metric reprojection raises ValueError, which the source swallows,
leaving the frame unchanged). -/
def from_gdf (hcol : String) (fid? : Option String) (g : Gdf) :
    Option (UmiProject × ℕ) :=
  (filterValidAttrs hcol (filterValidGeoms g).1).bind (fun g2w =>
    let fidg := fidStage fid? g2w.1
    let g4 := explodeGdf fidg.2
    let g5 := centerStage g4
    (brepStage hcol g5).bind (fun lb =>
      if g5.cols.contains fidg.1 then
        let rows6 := guidRows (filterErrored lb).1
        let g7 := add_default_shoebox_settings ⟨addCol g5.cols "guid", rows6⟩
        (update_umi_sqlite3 g7 ⟨[], []⟩).map (fun db =>
          (⟨g4, g7, buildingObjs fidg.1 rows6 ++ [siteBoundaryObj rows6.length], db⟩,
           (filterValidGeoms g).2 + g2w.2 + (filterErrored lb).2))
      else none))

/-- The archive payload that feeds UmiProject.open: save writes the 3dm
document, commits the sqlite sidecar and writes the JSON mirror of gdf_3dm
to sdl-common/project.json; open re-ingests only the mirror (the 3dm
keyword argument is dropped by from_gdf). -/
structure Archive where
  savedGdf : Gdf
deriving DecidableEq, Repr

/-- UmiProject.save: packages the project, writing the JSON mirror of the
current feature table. -/
def save (p : UmiProject) : Archive := ⟨p.gdf_3dm⟩

/-- Reading sdl-common/project.json back as a GeoDataFrame: the GeoJSON
feature id, written from the frame index, materializes as an id column;
geometry and attribute cells round-trip unchanged (external geopandas
to_json/read). -/
def readMirror (a : Archive) : Gdf :=
  ⟨addCol a.savedGdf.cols "id",
   a.savedGdf.rows.map (fun r => setCell r "id" (some (.str r.idx)))⟩

/-- UmiProject.open: extracts the archive members and re-ingests the JSON
mirror through from_gdf with the hard-coded height column "Height" and fid
column "id". -/
def openProject (a : Archive) : Option (UmiProject × ℕ) :=
  from_gdf "Height" (some "id") (readMirror a)

/-- All polygon parts of a feature collection. -/
def allParts (g : Gdf) : List Polygon := g.rows.flatMap (fun r => r.geom.parts)

/-- Twice the signed area of a polygon via its rings (interior rings carry
the opposite orientation and subtract). -/
def polyA2 (p : Polygon) : ℚ := ringA2 p.exterior + (p.interiors.map ringA2).sum

/-- Centroid numerator sums of a polygon via its rings. -/
def polySx (p : Polygon) : ℚ := ringSx p.exterior + (p.interiors.map ringSx).sum

/-- Centroid numerator sums of a polygon via its rings. -/
def polySy (p : Polygon) : ℚ := ringSy p.exterior + (p.interiors.map ringSy).sum

/-- shapely unary_union.centroid of a collection of disjoint polygons: the
area-weighted centroid, by the shoelace integrals summed over every part. -/
def unionCentroid (g : Gdf) : Pt :=
  let a2 := ((allParts g).map polyA2).sum
  ⟨((allParts g).map polySx).sum / (3 * a2),
   ((allParts g).map polySy).sum / (3 * a2)⟩

/-- UmiProject.to_file: copies gdf_3dm, translates it back by the centroid
of the unary union of the pre-translation metric copy (the source uses
unary_union.centroid here, not unary_union.convex_hull.centroid), then
reprojects to the world CRS (external identity) and writes through fiona.
The exported feature table is returned. -/
def to_file (p : UmiProject) : Gdf :=
  translateGdf (unionCentroid p.gdf_world_projected) p.gdf_3dm

/-- An axis-aligned square footprint with lower-left corner (ox, oy) and
side s, counter-clockwise. -/
def sqPoly (ox oy s : ℚ) : Polygon :=
  ⟨[⟨ox, oy⟩, ⟨ox + s, oy⟩, ⟨ox + s, oy + s⟩, ⟨ox, oy + s⟩], []⟩

/-- A valid single-part feature row with one attribute cell. -/
def mkRow (idx : String) (p : Polygon) (c : String) (v : Option Val) : Row :=
  ⟨idx, ⟨[p], true⟩, [(c, v)]⟩

/-- Three valid footprints, one with height 0 and two with height 10. -/
def demo3 : Gdf :=
  ⟨["Height"],
   [mkRow "0" (sqPoly 0 0 1) "Height" (some (.num 0)),
    mkRow "1" (sqPoly 3 0 1) "Height" (some (.num 10)),
    mkRow "2" (sqPoly 6 0 1) "Height" (some (.num 10))]⟩

/-- One valid footprint whose height attribute column is named h. -/
def demoH : Gdf :=
  ⟨["h"], [mkRow "0" (sqPoly 0 0 1) "h" (some (.num 10))]⟩

/-- One valid footprint with height 10. -/
def demo1 : Gdf :=
  ⟨["Height"], [mkRow "0" (sqPoly 0 0 1) "Height" (some (.num 10))]⟩

/-- Two disjoint squares of different sizes (2 x 2 and 1 x 1), height 10:
the centroid of their union differs from the centroid of their union's
convex hull. -/
def demo2sq : Gdf :=
  ⟨["Height"],
   [mkRow "0" (sqPoly 0 0 2) "Height" (some (.num 10)),
    mkRow "1" (sqPoly 4 0 1) "Height" (some (.num 10))]⟩

/-- Number of building objects (umi::Buildings layer) in a project. -/
def buildingCount (p : UmiProject) : ℕ :=
  (p.objects.filter (fun o => o.layer == "umi::Buildings")).length

/-- Total number of rows across the two setting tables. -/
def settingsRowCount (db : Db) : ℕ :=
  db.plottable.length + db.nonplottable.length

/-- Setting names stored for one object in one table. -/
def dbNames (tbl : List SettingRec) (oid : String) : List String :=
  (tbl.filter (fun s => s.object_id == oid)).map (fun s => s.name)

/-- C2 counterexample: ingesting three valid footprints (heights 0, 10, 10)
yields 2 building objects and 1 warning, but the two setting tables together
hold 26 rows, not the 24 = 2 x 12 rows the claim states. -/
theorem c2_counterexample :
    (from_gdf "Height" none demo3).map
        (fun pw => (buildingCount pw.1, pw.2, settingsRowCount pw.1.db)) =
      some (2, 1, 26) ∧ (26 : ℕ) ≠ 24 := by
  constructor
  · decide
  · decide

/-- C2 (amended): ingesting 3 valid-geometry footprints, one with height 0
and two with height 10, yields exactly 2 building GeometryObjects, exactly 1
warning (for the dropped footprint) and 2 x 13 = 26 rows across the two
setting tables: 13 recognized keys per surviving object (11 plottable plus
EnergySimulatorName and FloorToFloorStrict; the TemplateName row is dropped
because its default NaN value is removed by dropna). -/
theorem c2_amended :
    (from_gdf "Height" none demo3).map
        (fun pw => (buildingCount pw.1, pw.2, settingsRowCount pw.1.db,
          pw.1.db.plottable.length, pw.1.db.nonplottable.length)) =
      some (2, 1, 26, 22, 4) := by
  decide

/-- C3 counterexample: after ingesting one footprint with default settings,
object uuid-0 is present in the sidecar but the union of its setting names
across the two tables does not contain TemplateName, although TemplateName
belongs to the fixed schema of recognized shoebox settings. -/
theorem c3_counterexample :
    (from_gdf "Height" none demo1).map (fun pw =>
      (pw.1.db.plottable.any (fun s => s.object_id == "uuid-"),
       (dbNames pw.1.db.plottable "uuid-" ++
         dbNames pw.1.db.nonplottable "uuid-").contains "TemplateName",
       schemaCols.contains "TemplateName")) = some (true, false, true) := by
  decide

/-- C7: the translation applied by to_file is not the inverse of the
ingestion translation: from_gdf subtracted the centroid of the convex hull
of the union (38/17, 15/17), while to_file adds back the centroid of the
union itself (17/10, 9/10), so on two disjoint unequal squares the exported
geometry differs from the retained pre-translation metric copy. -/
theorem c7_to_file_not_inverse :
    (from_gdf "Height" none demo2sq).map (fun pw =>
      (decide ((to_file pw.1).rows.map (fun r => r.geom) =
         pw.1.gdf_world_projected.rows.map (fun r => r.geom)),
       unionCentroid pw.1.gdf_world_projected,
       hullCentroidOf pw.1.gdf_world_projected)) =
      some (false, ⟨17 / 10, 9 / 10⟩, ⟨38 / 17, 15 / 17⟩) := by
  decide

/-- C6: geom_to_brep settles every degenerate case by returning the declared
degenerate marker (none, modelling np.NaN) instead of raising: any height at
or below the 1e-12 threshold yields the marker, a vertical sweep path of
length at most 1e-12 yields the marker, and whenever a solid is returned its
vertical extent exceeds 1e-12 — never zero or negative.  (The outer-profile
guard of the source is also honoured: the PolylineCurve constructor never
returns None, and the function is total.) -/
theorem c6_degenerate_handling :
    (∀ poly h, h ≤ epsHeight → geom_to_brep poly h = none) ∧
    (∀ poly h, |h| ≤ epsHeight → geom_to_brep poly h = none) ∧
    (∀ poly h b, geom_to_brep poly h = some b →
      epsHeight < b.height ∧ 0 < b.height) := by
  refine ⟨fun poly h hle => geom_to_brep_degenerate poly h hle,
    fun poly h habs => geom_to_brep_degenerate poly h (le_trans (le_abs_self h) habs),
    fun poly h b hsome => ?_⟩
  have hh := geom_to_brep_some_height poly h b hsome
  exact ⟨hh.1, lt_trans (by norm_num [epsHeight]) hh.1⟩

/-- Witness for C6 at concrete inputs: heights 0 and -5 are degenerate, and
the extrusion of a unit square by 10 has positive extent above the
threshold. -/
theorem c6_witness :
    geom_to_brep (sqPoly 0 0 1) (-5) = none ∧
    geom_to_brep (sqPoly 0 0 1) 0 = none ∧
    (epsHeight < (Brep.mk (orientPoly (sqPoly 0 0 1)) 10).height ∧
      0 < (Brep.mk (orientPoly (sqPoly 0 0 1)) 10).height) :=
  ⟨c6_degenerate_handling.1 (sqPoly 0 0 1) (-5) (by norm_num [epsHeight]),
   c6_degenerate_handling.2.1 (sqPoly 0 0 1) 0 (by norm_num [epsHeight]),
   c6_degenerate_handling.2.2 (sqPoly 0 0 1) 10
     (Brep.mk (orientPoly (sqPoly 0 0 1)) 10) (by decide)⟩

/-- C8: the centering step of from_gdf translates by the negated centroid of
the convex hull of the union of the metric-frame geometries, and afterwards
the centroid of the convex hull of the union of the translated geometries is
exactly (0, 0) (hence within any positive epsilon), provided the hull is
nondegenerate (nonzero area). -/
theorem c8_centroid_at_origin (g : Gdf) (h : ringA2 (unionHull (allPts g)) ≠ 0) :
    hullCentroidOf (centerStage g) = ⟨0, 0⟩ := by
  unfold centerStage
  unfold hullCentroidOf at *
  rw [show translateGdf (negPt (ringCentroid (unionHull (allPts g)))) g =
    translateGdf (negPt (ringCentroid (unionHull (allPts g)))) g from rfl]
  rw [allPts_translate, unionHull_translate, ringCentroid_translate _ _ h]
  unfold translatePt negPt
  simp

/-- Witness for C8: one unit-square footprint has a nondegenerate hull, and
after centering its hull centroid is exactly the origin. -/
theorem c8_witness :
    ringA2 (unionHull (allPts demo1)) ≠ 0 ∧
      hullCentroidOf (centerStage demo1) = ⟨0, 0⟩ :=
  ⟨by decide, c8_centroid_at_origin demo1 (by decide)⟩

/-- The per-setting step of fillna: fill the cell only when it is NaN. -/
def fillStep (r : Row) (ad : String × Option Val) : Row :=
  if cellGet r ad.1 = none then setCell r ad.1 ad.2 else r

theorem fillRow_eq_foldl (r : Row) :
    fillRow r = DEFAULT_SHOEBOX_SETTINGS.foldl fillStep r := by
  rfl

theorem lookupCell_isSome_setCells (cells : List (String × Option Val))
    (k c : String) (v : Option Val) (h : (lookupCell cells c).isSome) :
    (lookupCell (setCells cells k v) c).isSome := by
  by_cases hk : c = k
  · subst hk
    simp [lookupCell_setCells_same]
  · rw [lookupCell_setCells_other _ _ _ _ hk]
    exact h

theorem fillFold_get_preserve (ds : List (String × Option Val)) :
    ∀ (r : Row) (c : String) (v : Val), cellGet r c = some v →
      cellGet (ds.foldl fillStep r) c = some v := by
  induction ds with
  | nil => intro r c v h; simpa using h
  | cons d tl ih =>
    intro r c v h
    simp only [List.foldl_cons]
    apply ih
    unfold fillStep
    by_cases hd : cellGet r d.1 = none
    · rw [if_pos hd]
      by_cases hc : c = d.1
      · subst hc
        rw [h] at hd
        exact absurd hd (by simp)
      · rw [cellGet_setCell_other _ _ _ _ hc]
        exact h
    · rw [if_neg hd]
      exact h

theorem fillFold_lookup_other (ds : List (String × Option Val)) :
    ∀ (r : Row) (c : String), c ∉ ds.map Prod.fst →
      lookupCell ((ds.foldl fillStep r).cells) c = lookupCell r.cells c := by
  induction ds with
  | nil => intro r c _; rfl
  | cons d tl ih =>
    intro r c hc
    simp only [List.map_cons, List.mem_cons] at hc
    push_neg at hc
    simp only [List.foldl_cons]
    rw [ih _ _ hc.2]
    unfold fillStep
    by_cases hd : cellGet r d.1 = none
    · rw [if_pos hd]
      unfold setCell
      exact lookupCell_setCells_other _ _ _ _ hc.1
    · rw [if_neg hd]

theorem cellGet_of_lookup (r : Row) (c : String) :
    cellGet r c = match lookupCell r.cells c with
      | some v => v
      | none => none := rfl

theorem fillFold_get_other (ds : List (String × Option Val)) (r : Row)
    (c : String) (h : c ∉ ds.map Prod.fst) :
    cellGet (ds.foldl fillStep r) c = cellGet r c := by
  rw [cellGet_of_lookup, cellGet_of_lookup, fillFold_lookup_other ds r c h]

theorem fillFold_lookup_isSome (ds : List (String × Option Val)) :
    ∀ (r : Row) (c : String), (lookupCell r.cells c).isSome →
      (lookupCell ((ds.foldl fillStep r).cells) c).isSome := by
  induction ds with
  | nil => intro r c h; exact h
  | cons d tl ih =>
    intro r c h
    simp only [List.foldl_cons]
    apply ih
    unfold fillStep
    by_cases hd : cellGet r d.1 = none
    · rw [if_pos hd]
      exact lookupCell_isSome_setCells _ _ _ _ h
    · rw [if_neg hd]
      exact h

/-- After fillna every recognized setting has a binding in the row, and a
still-NaN cell can only belong to a setting whose default is itself NaN. -/
theorem fillFold_post (ds : List (String × Option Val))
    (hnd : (ds.map Prod.fst).Nodup) :
    ∀ (r : Row) (ad : String × Option Val), ad ∈ ds →
      (lookupCell ((ds.foldl fillStep r).cells) ad.1).isSome ∧
        (cellGet (ds.foldl fillStep r) ad.1 = none → ad.2 = none) := by
  induction ds with
  | nil => intro r ad h; exact absurd h (List.not_mem_nil ad)
  | cons d tl ih =>
    intro r ad had
    simp only [List.map_cons, List.nodup_cons] at hnd
    rcases List.mem_cons.mp had with h | h
    · subst h
      simp only [List.foldl_cons]
      constructor
      · apply fillFold_lookup_isSome
        unfold fillStep
        by_cases hd : cellGet r ad.1 = none
        · rw [if_pos hd]
          unfold setCell
          simp [lookupCell_setCells_same]
        · rw [if_neg hd]
          rw [cellGet_of_lookup] at hd
          cases hlk : lookupCell r.cells ad.1 with
          | none => rw [hlk] at hd; exact absurd rfl hd
          | some w => simp
      · intro hnone
        rw [fillFold_get_other tl _ _ hnd.1] at hnone
        unfold fillStep at hnone
        by_cases hd : cellGet r ad.1 = none
        · rw [if_pos hd, cellGet_setCell_same] at hnone
          exact hnone
        · rw [if_neg hd] at hnone
          exact absurd hnone hd
    · simp only [List.foldl_cons]
      exact ih hnd.2 _ ad h

/-- fillna is the identity on a row in which every recognized setting already
has a binding and every NaN setting cell has a NaN default. -/
theorem fillFold_id (ds : List (String × Option Val)) :
    ∀ (r : Row),
      (∀ ad ∈ ds, (lookupCell r.cells ad.1).isSome ∧
        (cellGet r ad.1 = none → ad.2 = none)) →
      ds.foldl fillStep r = r := by
  induction ds with
  | nil => intro r _; rfl
  | cons d tl ih =>
    intro r hpost
    have hstep : fillStep r d = r := by
      unfold fillStep
      by_cases hd : cellGet r d.1 = none
      · rw [if_pos hd]
        obtain ⟨hsome, hval⟩ := hpost d (List.mem_cons_self d tl)
        have h2 : d.2 = none := hval hd
        cases hlk : lookupCell r.cells d.1 with
        | none => rw [hlk] at hsome; exact absurd hsome (by simp)
        | some w =>
          have hw : w = none := by
            rw [cellGet_of_lookup, hlk] at hd
            exact hd
          rw [h2, ← hw]
          exact setCell_self r d.1 hlk
      · rw [if_neg hd]
    simp only [List.foldl_cons, hstep]
    exact ih r (fun ad had => hpost ad (List.mem_cons_of_mem d had))

theorem fillRow_fillRow (r : Row) : fillRow (fillRow r) = fillRow r := by
  rw [show fillRow (fillRow r) =
    DEFAULT_SHOEBOX_SETTINGS.foldl fillStep (fillRow r) from rfl]
  apply fillFold_id
  intro ad had
  rw [fillRow_eq_foldl]
  exact fillFold_post DEFAULT_SHOEBOX_SETTINGS (by decide) r ad had

theorem mapFillRow_idem (l : List Row) :
    (l.map fillRow).map fillRow = l.map fillRow := by
  induction l with
  | nil => rfl
  | cons a tl ih =>
    simp only [List.map_cons]
    rw [fillRow_fillRow, ih]


/-- The per-setting step of the column-adding phase. -/
def amcStep (acc : Gdf) (ad : String × Option Val) : Gdf :=
  if ad.1 ∈ acc.cols then acc
  else ⟨acc.cols ++ [ad.1], acc.rows.map (fun r => setCell r ad.1 ad.2)⟩

theorem addMissingColumns_eq_foldl (g : Gdf) :
    addMissingColumns g = DEFAULT_SHOEBOX_SETTINGS.foldl amcStep g := rfl

theorem add_default_def (g : Gdf) :
    add_default_shoebox_settings g =
      ⟨(addMissingColumns g).cols, (addMissingColumns g).rows.map fillRow⟩ := rfl

theorem gdfRows_mk (cols : List String) (rows : List Row) :
    (Gdf.mk cols rows).rows = rows := rfl

theorem gdfCols_mk (cols : List String) (rows : List Row) :
    (Gdf.mk cols rows).cols = cols := rfl

theorem add_default_rows (g : Gdf) :
    (add_default_shoebox_settings g).rows = (addMissingColumns g).rows.map fillRow := by
  rw [add_default_def, gdfRows_mk]

theorem add_default_cols (g : Gdf) :
    (add_default_shoebox_settings g).cols = (addMissingColumns g).cols := by
  rw [add_default_def, gdfCols_mk]

theorem amcFold_cols_mono (ds : List (String × Option Val)) :
    ∀ acc : Gdf, acc.cols ⊆ (ds.foldl amcStep acc).cols := by
  induction ds with
  | nil => intro acc; exact fun c h => h
  | cons d tl ih =>
    intro acc
    simp only [List.foldl_cons]
    refine subset_trans ?_ (ih (amcStep acc d))
    unfold amcStep
    by_cases hd : d.1 ∈ acc.cols
    · rw [if_pos hd]
      exact fun c h => h
    · rw [if_neg hd]
      exact fun c h => List.mem_append_left _ h

theorem amcFold_cols_mem (ds : List (String × Option Val)) :
    ∀ (acc : Gdf) (ad : String × Option Val), ad ∈ ds →
      ad.1 ∈ (ds.foldl amcStep acc).cols := by
  induction ds with
  | nil => intro acc ad h; exact absurd h (List.not_mem_nil ad)
  | cons d tl ih =>
    intro acc ad had
    rcases List.mem_cons.mp had with h | h
    · subst h
      simp only [List.foldl_cons]
      apply amcFold_cols_mono
      unfold amcStep
      by_cases hd : ad.1 ∈ acc.cols
      · rw [if_pos hd]; exact hd
      · rw [if_neg hd]
        exact List.mem_append_right _ (List.mem_singleton_self _)
    · simp only [List.foldl_cons]
      exact ih _ ad h

theorem amcFold_id (ds : List (String × Option Val)) :
    ∀ acc : Gdf, (∀ ad ∈ ds, ad.1 ∈ acc.cols) → ds.foldl amcStep acc = acc := by
  induction ds with
  | nil => intro acc _; rfl
  | cons d tl ih =>
    intro acc h
    have hstep : amcStep acc d = acc := by
      unfold amcStep
      rw [if_pos (h d (List.mem_cons_self d tl))]
    simp only [List.foldl_cons, hstep]
    exact ih acc (fun ad had => h ad (List.mem_cons_of_mem d had))

theorem forall2_pres_comp (P : Row → Row → Prop)
    (hP : ∀ a b c, P a b → P b c → P a c) :
    ∀ {l1 l2 l3 : List Row}, List.Forall₂ P l1 l2 → List.Forall₂ P l2 l3 →
      List.Forall₂ P l1 l3 := by
  intro l1 l2 l3 h12
  induction h12 generalizing l3 with
  | nil =>
    intro h23
    cases h23
    exact List.Forall₂.nil
  | cons hab htl ih =>
    intro h23
    cases h23 with
    | cons hbc htl2 => exact List.Forall₂.cons (hP _ _ _ hab hbc) (ih htl2)

theorem forall2_map_right {P : Row → Row → Prop} (f : Row → Row) :
    ∀ l : List Row, (∀ a ∈ l, P a (f a)) → List.Forall₂ P l (l.map f) := by
  intro l
  induction l with
  | nil => intro _; exact List.Forall₂.nil
  | cons a tl ih =>
    intro h
    exact List.Forall₂.cons (h a (List.mem_cons_self a tl))
      (ih (fun b hb => h b (List.mem_cons_of_mem a hb)))

theorem lookupCell_some_mem (cells : List (String × Option Val)) (c : String)
    (w : Option Val) (h : lookupCell cells c = some w) : (c, w) ∈ cells := by
  induction cells with
  | nil => simp [lookupCell] at h
  | cons kv rest ih =>
    obtain ⟨k, u⟩ := kv
    by_cases hk : k = c
    · subst hk
      simp [lookupCell] at h
      subst h
      exact List.mem_cons_self _ _
    · simp [lookupCell, hk] at h
      exact List.mem_cons_of_mem _ (ih h)

theorem lookupCell_setCells_cases (cells : List (String × Option Val))
    (k c : String) (v w : Option Val)
    (h : lookupCell (setCells cells k v) c = some w) :
    c = k ∨ lookupCell cells c = some w := by
  by_cases hk : c = k
  · exact Or.inl hk
  · rw [lookupCell_setCells_other _ _ _ _ hk] at h
    exact Or.inr h

/-- Well-formed frame: every cell binding of every row belongs to a declared
column (automatic for a pandas DataFrame). -/
def WfGdf (g : Gdf) : Prop :=
  ∀ r ∈ g.rows, ∀ kv ∈ r.cells, kv.1 ∈ g.cols

theorem amcFold_preserve (ds : List (String × Option Val)) :
    ∀ acc : Gdf,
      (∀ r ∈ acc.rows, ∀ c w, lookupCell r.cells c = some w → c ∈ acc.cols) →
      List.Forall₂
        (fun r r' => ∀ c v, cellGet r c = some v → cellGet r' c = some v)
        acc.rows (ds.foldl amcStep acc).rows := by
  induction ds with
  | nil =>
    intro acc _
    exact (List.forall₂_same).mpr (fun r _ c v h => h)
  | cons d tl ih =>
    intro acc hwf
    simp only [List.foldl_cons]
    unfold amcStep
    by_cases hd : d.1 ∈ acc.cols
    · rw [if_pos hd]
      exact ih acc hwf
    · rw [if_neg hd]
      have hwf2 : ∀ r ∈ (Gdf.mk (acc.cols ++ [d.1])
            (acc.rows.map (fun r => setCell r d.1 d.2))).rows, ∀ c w,
          lookupCell r.cells c = some w →
            c ∈ (Gdf.mk (acc.cols ++ [d.1])
              (acc.rows.map (fun r => setCell r d.1 d.2))).cols := by
        intro r hr c w hlk
        simp only [List.mem_map] at hr
        obtain ⟨r0, hr0, hre⟩ := hr
        subst hre
        rcases lookupCell_setCells_cases r0.cells d.1 c d.2 w hlk with h | h
        · subst h
          exact List.mem_append_right _ (List.mem_singleton_self _)
        · exact List.mem_append_left _ (hwf r0 hr0 c w h)
      refine forall2_pres_comp
        (fun r r' => ∀ c v, cellGet r c = some v → cellGet r' c = some v)
        (fun a b c hab hbc cc v hget => hbc cc v (hab cc v hget)) ?_
        (ih (Gdf.mk (acc.cols ++ [d.1])
          (acc.rows.map (fun r => setCell r d.1 d.2))) hwf2)
      apply forall2_map_right
      intro r hr c v hget
      have hne : c ≠ d.1 := by
        intro he
        apply hd
        rw [← he]
        apply hwf r hr c (some v)
        rw [cellGet_of_lookup] at hget
        cases hlk : lookupCell r.cells c with
        | none => rw [hlk] at hget; exact absurd hget (by simp)
        | some u =>
          rw [hlk] at hget
          have hu : u = some v := hget
          rw [hu]
      rw [cellGet_setCell_other _ _ _ _ hne]
      exact hget

/-- C10: add_default_shoebox_settings only fills missing data — for a
well-formed frame every cell already holding a non-null value is unchanged
(only absent columns and NaN entries receive the schema defaults) — and the
operation is idempotent: applying it twice yields the same feature table as
applying it once. -/
theorem c10_fill_only_missing :
    (∀ g : Gdf, WfGdf g →
      List.Forall₂
        (fun r r' => ∀ c v, cellGet r c = some v → cellGet r' c = some v)
        g.rows (add_default_shoebox_settings g).rows) ∧
    (∀ g : Gdf, add_default_shoebox_settings (add_default_shoebox_settings g) =
      add_default_shoebox_settings g) := by
  constructor
  · intro g hwf
    rw [add_default_rows]
    have h1 : List.Forall₂
        (fun r r' => ∀ c v, cellGet r c = some v → cellGet r' c = some v)
        g.rows (addMissingColumns g).rows := by
      rw [addMissingColumns_eq_foldl]
      apply amcFold_preserve
      intro r hr c w hlk
      exact hwf r hr (c, w) (lookupCell_some_mem _ _ _ hlk)
    have h2 : List.Forall₂
        (fun r r' => ∀ c v, cellGet r c = some v → cellGet r' c = some v)
        (addMissingColumns g).rows ((addMissingColumns g).rows.map fillRow) := by
      apply forall2_map_right
      intro r _ c v hget
      rw [fillRow_eq_foldl]
      exact fillFold_get_preserve DEFAULT_SHOEBOX_SETTINGS r c v hget
    exact forall2_pres_comp
      (fun r r' => ∀ c v, cellGet r c = some v → cellGet r' c = some v)
      (fun a b c hab hbc cc v hget => hbc cc v (hab cc v hget)) h1 h2
  · intro g
    have hcols : ∀ ad ∈ DEFAULT_SHOEBOX_SETTINGS,
        ad.1 ∈ (add_default_shoebox_settings g).cols := by
      intro ad had
      rw [add_default_cols, addMissingColumns_eq_foldl]
      exact amcFold_cols_mem DEFAULT_SHOEBOX_SETTINGS g ad had
    have hamc : addMissingColumns (add_default_shoebox_settings g) =
        add_default_shoebox_settings g := by
      rw [addMissingColumns_eq_foldl (add_default_shoebox_settings g)]
      exact amcFold_id DEFAULT_SHOEBOX_SETTINGS _ hcols
    rw [add_default_def (add_default_shoebox_settings g), hamc,
      add_default_rows, add_default_cols, mapFillRow_idem]
    exact (add_default_def g).symm

/-- A one-row frame that already carries a non-default CoreDepth value. -/
def demoFill : Gdf :=
  ⟨["CoreDepth"], [⟨"0", ⟨[sqPoly 0 0 1], true⟩, [("CoreDepth", some (.num 99))]⟩]⟩

/-- Witness for C10 on a concrete frame with a pre-set CoreDepth of 99. -/
theorem c10_witness :
    WfGdf demoFill ∧
    List.Forall₂
      (fun r r' => ∀ c v, cellGet r c = some v → cellGet r' c = some v)
      demoFill.rows (add_default_shoebox_settings demoFill).rows ∧
    add_default_shoebox_settings (add_default_shoebox_settings demoFill) =
      add_default_shoebox_settings demoFill :=
  ⟨by unfold WfGdf; decide, c10_fill_only_missing.1 demoFill (by unfold WfGdf; decide),
   c10_fill_only_missing.2 demoFill⟩

/-- Number of rows of one setting table carrying a given (object_id, name)
pair. -/
def countPair (tbl : List SettingRec) (o n : String) : ℕ :=
  (tbl.filter (fun s => s.object_id == o && s.name == n)).length

theorem countPair_addKeys (o n : String) :
    ∀ (recs : List (String × String × Option Val)) (i : ℕ),
      countPair (addKeys i recs) o n =
        (recs.filter (fun rc => rc.1 == o && rc.2.1 == n && rc.2.2.isSome)).length := by
  intro recs
  induction recs with
  | nil => intro i; rfl
  | cons rc tl ih =>
    intro i
    obtain ⟨oid, c, v?⟩ := rc
    cases v? with
    | none =>
      rw [show addKeys i ((oid, c, none) :: tl) = addKeys (i + 1) tl from rfl]
      rw [ih (i + 1), List.filter_cons]
      simp
    | some v =>
      rw [show addKeys i ((oid, c, some v) :: tl) =
        (⟨i, oid, c, v⟩ : SettingRec) :: addKeys (i + 1) tl from rfl]
      unfold countPair
      rw [List.filter_cons, List.filter_cons]
      by_cases ho1 : (oid == o) = true
      · by_cases hc : (c == n) = true
        · simp only [ho1, hc, Option.isSome_some, Bool.and_true, Bool.true_and,
            Bool.and_self, if_true, List.length_cons]
          exact congrArg (fun m => m + 1) (ih (i + 1))
        · simp only [ho1, hc, Option.isSome_some, Bool.and_true, Bool.true_and,
            Bool.and_false, Bool.false_and, if_false]
          exact ih (i + 1)
      · have hfalse : (oid == o) = false := by
          revert ho1
          cases oid == o <;> simp
        simp only [Option.isSome_some, hfalse, Bool.false_and, if_false]
        exact ih (i + 1)

/-- Two feature rows carrying the same guid text, with different CoreDepth
values: melt supplies two rows with the same (object_id, name). -/
def demoDup : Gdf :=
  ⟨schemaCols ++ ["guid"],
   [⟨"0", ⟨[sqPoly 0 0 1], true⟩,
     [("guid", some (.str "a")), ("CoreDepth", some (.num 1))]⟩,
    ⟨"1", ⟨[sqPoly 3 0 1], true⟩,
     [("guid", some (.str "a")), ("CoreDepth", some (.num 2))]⟩]⟩

/-- C4 counterexample: update_umi_sqlite3 on a frame supplying two rows with
the same (object_id, setting name) leaves both rows in the replaced table —
two CoreDepth rows for object a, with both values — not exactly one
last-write-wins row. -/
theorem c4_counterexample :
    (update_umi_sqlite3 demoDup ⟨[], []⟩).map (fun db =>
      (countPair db.plottable "a" "CoreDepth",
       (db.plottable.filter (fun s => s.name == "CoreDepth")).map
         (fun s => s.value))) = some (2, [.num 1, .num 2]) ∧ (2 : ℕ) ≠ 1 := by
  constructor
  · decide
  · decide

/-- C4 (amended): update_umi_sqlite3 replaces the full contents of each of
the two setting tables with rows derived solely from the current feature
table (the prior sidecar contents are irrelevant — whole-table last-write-
wins), but when two rows with the same (object_id, setting name) are
supplied to the same table, all of them remain (each under its own melt-index
key; pandas if_exists="replace" drops the table with its primary key), so
the per-pair row count equals the number of supplied non-null records. -/
theorem c4_bulk_replace :
    (∀ (g : Gdf) (db1 db2 : Db),
      update_umi_sqlite3 g db1 = update_umi_sqlite3 g db2) ∧
    (∀ (g : Gdf) (db0 db : Db) (o n : String),
      update_umi_sqlite3 g db0 = some db →
      countPair db.plottable o n =
        ((meltRecs plotCols g).filter
          (fun rc => rc.1 == o && rc.2.1 == n && rc.2.2.isSome)).length ∧
      countPair db.nonplottable o n =
        ((meltRecs nonplotCols g).filter
          (fun rc => rc.1 == o && rc.2.1 == n && rc.2.2.isSome)).length) := by
  constructor
  · intro g db1 db2
    unfold update_umi_sqlite3 toSqlReplace
    rfl
  · intro g db0 db o n hupd
    unfold update_umi_sqlite3 toSqlReplace at hupd
    by_cases hguard :
        ((plotCols ++ nonplotCols ++ ["guid"]).all (fun c => g.cols.contains c)) = true
    · rw [if_pos hguard] at hupd
      have hdb : db = ⟨addKeys 0 (meltRecs plotCols g),
          addKeys 0 (meltRecs nonplotCols g)⟩ := by
        exact (Option.some.injEq _ _).mp hupd.symm
      subst hdb
      exact ⟨countPair_addKeys o n (meltRecs plotCols g) 0,
        countPair_addKeys o n (meltRecs nonplotCols g) 0⟩
    · rw [if_neg hguard] at hupd
      exact absurd hupd (by simp)

/-- The sidecar derived from demoDup. -/
def demoDupDb : Db :=
  ⟨addKeys 0 (meltRecs plotCols demoDup), addKeys 0 (meltRecs nonplotCols demoDup)⟩

/-- Witness for C4 at the concrete duplicate-guid frame. -/
theorem c4_witness :
    update_umi_sqlite3 demoDup ⟨[], []⟩ =
      update_umi_sqlite3 demoDup ⟨[⟨0, "z", "w", .num 5⟩], []⟩ ∧
    countPair demoDupDb.plottable "a" "CoreDepth" =
      ((meltRecs plotCols demoDup).filter
        (fun rc => rc.1 == "a" && rc.2.1 == "CoreDepth" && rc.2.2.isSome)).length :=
  ⟨c4_bulk_replace.1 demoDup ⟨[], []⟩ ⟨[⟨0, "z", "w", .num 5⟩], []⟩,
   (c4_bulk_replace.2 demoDup ⟨[], []⟩ demoDupDb "a" "CoreDepth" (by decide)).1⟩

/-- Characterization of a successful from_gdf run in terms of its stages. -/
theorem from_gdf_eq_some (hcol : String) (fid? : Option String) (g : Gdf)
    (p : UmiProject) (w : ℕ) (h : from_gdf hcol fid? g = some (p, w)) :
    ∃ (g2w : Gdf × ℕ) (lb : List (Row × Option Brep)) (db : Db),
      filterValidAttrs hcol (filterValidGeoms g).1 = some g2w ∧
      brepStage hcol (centerStage (explodeGdf (fidStage fid? g2w.1).2)) = some lb ∧
      ((centerStage (explodeGdf (fidStage fid? g2w.1).2)).cols.contains
        (fidStage fid? g2w.1).1) = true ∧
      update_umi_sqlite3
        (add_default_shoebox_settings
          ⟨addCol (centerStage (explodeGdf (fidStage fid? g2w.1).2)).cols "guid",
           guidRows (filterErrored lb).1⟩) ⟨[], []⟩ = some db ∧
      p = ⟨explodeGdf (fidStage fid? g2w.1).2,
           add_default_shoebox_settings
             ⟨addCol (centerStage (explodeGdf (fidStage fid? g2w.1).2)).cols "guid",
              guidRows (filterErrored lb).1⟩,
           buildingObjs (fidStage fid? g2w.1).1 (guidRows (filterErrored lb).1) ++
             [siteBoundaryObj (guidRows (filterErrored lb).1).length],
           db⟩ ∧
      w = (filterValidGeoms g).2 + g2w.2 + (filterErrored lb).2 := by
  unfold from_gdf at h
  rw [Option.bind_eq_some] at h
  obtain ⟨g2w, hg2w, h⟩ := h
  simp only [Option.bind_eq_some] at h
  obtain ⟨lb, hlb, h⟩ := h
  refine ⟨g2w, lb, ?_⟩
  by_cases hguard : ((centerStage (explodeGdf (fidStage fid? g2w.1).2)).cols.contains
      (fidStage fid? g2w.1).1) = true
  · rw [if_pos hguard] at h
    rw [Option.map_eq_some'] at h
    obtain ⟨db, hdb, hpw⟩ := h
    refine ⟨db, hg2w, hlb, hguard, hdb, ?_, ?_⟩
    · exact congrArg Prod.fst hpw.symm
    · exact congrArg Prod.snd hpw.symm
  · rw [if_neg hguard] at h
    exact absurd h (by simp)

theorem mapM_some_mem {α β : Type} (f : α → Option β) :
    ∀ (l : List α) (l2 : List β), l.mapM f = some l2 →
      ∀ b ∈ l2, ∃ a ∈ l, f a = some b := by
  intro l
  induction l with
  | nil =>
    intro l2 h b hb
    simp only [List.mapM_nil, Option.pure_def, Option.some.injEq] at h
    subst h
    exact absurd hb (List.not_mem_nil b)
  | cons a tl ih =>
    intro l2 h b hb
    simp only [List.mapM_cons, Option.pure_def, Option.bind_eq_bind,
      Option.bind_eq_some, Option.some.injEq] at h
    obtain ⟨b0, hb0, l2t, hl2t, hcons⟩ := h
    subst hcons
    rcases List.mem_cons.mp hb with h | h
    · subst h
      exact ⟨a, List.mem_cons_self a tl, hb0⟩
    · obtain ⟨a2, ha2, hfa2⟩ := ih l2t hl2t b h
      exact ⟨a2, List.mem_cons_of_mem a ha2, hfa2⟩

theorem forall2_mem_right {P : Row → Row → Prop} :
    ∀ {l l2 : List Row}, List.Forall₂ P l l2 → ∀ b ∈ l2, ∃ a ∈ l, P a b := by
  intro l l2 h
  induction h with
  | nil => intro b hb; exact absurd hb (List.not_mem_nil b)
  | cons hab htl ih =>
    intro b hb
    rcases List.mem_cons.mp hb with h | h
    · subst h
      exact ⟨_, List.mem_cons_self _ _, hab⟩
    · obtain ⟨a2, ha2, hp⟩ := ih b h
      exact ⟨a2, List.mem_cons_of_mem _ ha2, hp⟩

/-- The column-adding phase leaves every cell of an already-declared column
unchanged. -/
theorem amcFold_cellget (ds : List (String × Option Val)) :
    ∀ (acc : Gdf) (cols0 : List String), cols0 ⊆ acc.cols →
      List.Forall₂ (fun r r' => ∀ c, c ∈ cols0 → cellGet r' c = cellGet r c)
        acc.rows (ds.foldl amcStep acc).rows := by
  induction ds with
  | nil =>
    intro acc cols0 _
    exact (List.forall₂_same).mpr (fun r _ c _ => rfl)
  | cons d tl ih =>
    intro acc cols0 hsub
    simp only [List.foldl_cons]
    unfold amcStep
    by_cases hd : d.1 ∈ acc.cols
    · rw [if_pos hd]
      exact ih acc cols0 hsub
    · rw [if_neg hd]
      refine forall2_pres_comp
        (fun r r' => ∀ c, c ∈ cols0 → cellGet r' c = cellGet r c)
        (fun a b c hab hbc cc hcc => (hbc cc hcc).trans (hab cc hcc)) ?_
        (ih (Gdf.mk (acc.cols ++ [d.1])
          (acc.rows.map (fun r => setCell r d.1 d.2))) cols0
          (subset_trans hsub (fun c hc => List.mem_append_left _ hc)))
      apply forall2_map_right
      intro r _ c hc
      have hne : c ≠ d.1 := by
        intro he
        subst he
        exact hd (hsub hc)
      exact cellGet_setCell_other _ _ _ _ hne

/-- Rows handed to the brep apply step: every list entry pairs a frame row
with the result of geom_to_brep on its single polygon part and its numeric
height. -/
theorem brepStage_mem (hcol : String) (g : Gdf) (lb : List (Row × Option Brep))
    (h : brepStage hcol g = some lb) :
    ∀ rb ∈ lb, ∃ (q : ℚ) (pp : Polygon),
      cellGet rb.1 hcol = some (.num q) ∧ rb.1.geom.parts = [pp] ∧
      rb.2 = geom_to_brep pp q := by
  intro rb hrb
  obtain ⟨r, hr, hfr⟩ := mapM_some_mem _ g.rows lb h rb hrb
  rcases hq : cellGet r hcol with _ | v
  · rw [hq] at hfr
    simp at hfr
  · cases v with
    | num q =>
      rw [hq] at hfr
      rcases hparts : r.geom.parts with _ | ⟨pp, rest⟩
      · rw [hparts] at hfr
        simp at hfr
      · cases rest with
        | nil =>
          rw [hparts] at hfr
          simp only [Option.some.injEq] at hfr
          subst hfr
          exact ⟨q, pp, hq, hparts, rfl⟩
        | cons pp2 rest2 =>
          rw [hparts] at hfr
          simp at hfr
    | str s =>
      rw [hq] at hfr
      simp at hfr
    | bool b =>
      rw [hq] at hfr
      simp at hfr

theorem umiGdf3dm_mk (a b : Gdf) (c : List Obj) (d : Db) :
    (UmiProject.mk a b c d).gdf_3dm = b := rfl

theorem umiGwp_mk (a b : Gdf) (c : List Obj) (d : Db) :
    (UmiProject.mk a b c d).gdf_world_projected = a := rfl

theorem umiDb_mk (a b : Gdf) (c : List Obj) (d : Db) :
    (UmiProject.mk a b c d).db = d := rfl

theorem centerStage_cols (g : Gdf) : (centerStage g).cols = g.cols := rfl

theorem explodeGdf_cols (g : Gdf) : (explodeGdf g).cols = g.cols := rfl

theorem filterErrored_fst (l : List (Row × Option Brep)) :
    (filterErrored l).1 = l.filterMap (fun rb => rb.2.map (fun b => (rb.1, b))) := rfl

theorem guidRows_def (l : List (Row × Brep)) :
    guidRows l = l.enum.map
      (fun ib => setCell ib.2.1 "guid" (some (.str (mintGuid ib.1)))) := rfl

theorem mem_addCol (cols : List String) (c' c : String) (h : c ∈ cols) :
    c ∈ addCol cols c' := by
  unfold addCol
  by_cases hc : c' ∈ cols
  · rw [if_pos hc]; exact h
  · rw [if_neg hc]; exact List.mem_append_left _ h

theorem filterValidAttrs_parts (hcol : String) (g : Gdf) (g2w : Gdf × ℕ)
    (h : filterValidAttrs hcol g = some g2w) :
    g2w.1.cols = g.cols ∧ hcol ∈ g.cols ∧
      g2w.1.rows = g.rows.filter (fun r => (cellGet r hcol).isSome) := by
  unfold filterValidAttrs at h
  by_cases hc : g.cols.contains hcol = true
  · rw [if_pos hc] at h
    have he := (Option.some.injEq _ _).mp h.symm
    subst he
    exact ⟨rfl, by simpa using hc, rfl⟩
  · rw [if_neg hc] at h
    exact absurd h (by simp)

theorem fidStage_cols_super (fid? : Option String) (g : Gdf) :
    g.cols ⊆ (fidStage fid? g).2.cols := by
  cases fid? with
  | some f => exact fun c h => h
  | none =>
    unfold fidStage
    by_cases hc : g.cols.contains "fid" = true
    · rw [if_pos hc]
      exact fun c h => h
    · rw [if_neg hc]
      exact fun c h => List.mem_append_left _ h

theorem mem_enum_snd {α : Type} (l : List α) (x : ℕ × α) (h : x ∈ l.enum) :
    x.2 ∈ l := by
  have h2 : x.2 ∈ l.enum.map Prod.snd := List.mem_map_of_mem Prod.snd h
  rwa [List.enum_map_snd] at h2

/-- The frame reaching the brep apply step for demo3 (its filters drop
nothing). -/
def demo3BrepInput : Gdf := centerStage (explodeGdf (fidStage none demo3).2)

/-- C5 counterexample: in the ingestion of demo3, the height-0 footprint
passes the upstream filters (which only drop missing heights), reaches the
extrusion step with height 0 <= 1e-12, and geom_to_brep answers with its
height-degenerate branch — so the branch is reachable from the ingestion
pipeline. -/
theorem c5_counterexample :
    (filterValidAttrs "Height" (filterValidGeoms demo3).1).map
        (fun g2w => centerStage (explodeGdf (fidStage none g2w.1).2)) =
      some demo3BrepInput ∧
    demo3BrepInput.rows.head?.map (fun r => cellGet r "Height") =
      some (some (.num 0)) ∧
    (0 : ℚ) ≤ epsHeight ∧
    demo3BrepInput.rows.head?.map
      (fun r => r.geom.parts.map (fun pp => geom_to_brep pp 0)) = some [none] := by
  refine ⟨by decide, by decide, by norm_num [epsHeight], by decide⟩

/-- C5 (amended): the exclusion performed before extrusion filters only
missing (NaN) heights; a feature with finite height <= 1e-12 does reach
geom_to_brep, whose degenerate branch handles it and whose np.NaN result
drops the row afterwards — consequently every feature surviving ingestion
carries a numeric height strictly greater than 1e-12. -/
theorem c5_surviving_heights (hcol : String) (fid? : Option String) (g : Gdf)
    (p : UmiProject) (w : ℕ) (hne : hcol ≠ "guid")
    (h : from_gdf hcol fid? g = some (p, w)) :
    ∀ r ∈ p.gdf_3dm.rows, ∃ q : ℚ,
      cellGet r hcol = some (.num q) ∧ epsHeight < q := by
  obtain ⟨g2w, lb, db, hg2w, hlb, hguard, hdb, hp, hw⟩ :=
    from_gdf_eq_some hcol fid? g p w h
  intro r hr
  rw [hp, umiGdf3dm_mk, add_default_rows, List.mem_map] at hr
  obtain ⟨r2, hr2, hfill⟩ := hr
  rw [addMissingColumns_eq_foldl] at hr2
  have hX := amcFold_cellget DEFAULT_SHOEBOX_SETTINGS
    (Gdf.mk (addCol (centerStage (explodeGdf (fidStage fid? g2w.1).2)).cols "guid")
      (guidRows (filterErrored lb).1))
    (addCol (centerStage (explodeGdf (fidStage fid? g2w.1).2)).cols "guid")
    (fun c hc => hc)
  obtain ⟨r3, hr3, hcells⟩ := forall2_mem_right hX r2 hr2
  rw [gdfRows_mk, guidRows_def, List.mem_map] at hr3
  obtain ⟨ib, hib, hset⟩ := hr3
  have hmem4 : ib.2 ∈ (filterErrored lb).1 := mem_enum_snd _ ib hib
  rw [filterErrored_fst, List.mem_filterMap] at hmem4
  obtain ⟨rb, hrb, hrbmap⟩ := hmem4
  obtain ⟨q, pp, hq, hparts, hbrep⟩ := brepStage_mem hcol _ lb hlb rb hrb
  rcases hb2 : rb.2 with _ | b0
  · rw [hb2] at hrbmap
    simp at hrbmap
  · rw [hb2] at hrbmap
    simp only [Option.map_some', Option.some.injEq] at hrbmap
    have hr41 : rb.1 = ib.2.1 := congrArg Prod.fst hrbmap
    have hcolmem : hcol ∈
        addCol (centerStage (explodeGdf (fidStage fid? g2w.1).2)).cols "guid" := by
      apply mem_addCol
      rw [centerStage_cols, explodeGdf_cols]
      obtain ⟨hc1, hc2, _⟩ := filterValidAttrs_parts hcol _ g2w hg2w
      exact fidStage_cols_super fid? g2w.1 (by rw [hc1]; exact hc2)
    refine ⟨q, ?_, ?_⟩
    · rw [← hfill, fillRow_eq_foldl]
      apply fillFold_get_preserve
      rw [hcells hcol hcolmem, ← hset, cellGet_setCell_other _ _ _ _ hne,
        ← hr41, hq]
    · have hsome : geom_to_brep pp q = some b0 := hbrep.symm.trans hb2
      have hgt := geom_to_brep_some_height pp q b0 hsome
      rw [← hgt.2]
      exact hgt.1

/-- An empty project value, used only as a getD default. -/
def umiDefault : UmiProject := ⟨⟨[], []⟩, ⟨[], []⟩, [], ⟨[], []⟩⟩

/-- The concrete project built from demo3. -/
def demo3Proj : UmiProject × ℕ := (from_gdf "Height" none demo3).getD (umiDefault, 0)

/-- Witness for C5 on the demo3 ingestion: both surviving features carry a
numeric height above the threshold. -/
theorem c5_witness :
    ("Height" : String) ≠ "guid" ∧
    from_gdf "Height" none demo3 = some (demo3Proj.1, demo3Proj.2) ∧
    ∀ r ∈ demo3Proj.1.gdf_3dm.rows, ∃ q : ℚ,
      cellGet r "Height" = some (.num q) ∧ epsHeight < q :=
  ⟨by decide, by decide,
   c5_surviving_heights "Height" none demo3 demo3Proj.1 demo3Proj.2
     (by decide) (by decide)⟩

/-- The (name, value) pairs stored for one object in one setting table. -/
def tableNV (tbl : List SettingRec) (oid : String) : List (String × Val) :=
  (tbl.filter (fun s => s.object_id == oid)).map (fun s => (s.name, s.value))

/-- The (name, value) pairs supplied for one object by a melt record list
(non-null values only). -/
def recsNV (recs : List (String × String × Option Val)) (oid : String) :
    List (String × Val) :=
  recs.filterMap (fun rc => match rc with
    | (o, c, some v) => if o == oid then some (c, v) else none
    | (_, _, none) => none)

theorem tableNV_addKeys (oid : String) :
    ∀ (recs : List (String × String × Option Val)) (i : ℕ),
      tableNV (addKeys i recs) oid = recsNV recs oid := by
  intro recs
  induction recs with
  | nil => intro i; rfl
  | cons rc tl ih =>
    intro i
    obtain ⟨o, c, v?⟩ := rc
    cases v? with
    | none =>
      rw [show addKeys i ((o, c, none) :: tl) = addKeys (i + 1) tl from rfl]
      rw [show recsNV ((o, c, none) :: tl) oid = recsNV tl oid from rfl]
      exact ih (i + 1)
    | some v =>
      rw [show addKeys i ((o, c, some v) :: tl) =
        (⟨i, o, c, v⟩ : SettingRec) :: addKeys (i + 1) tl from rfl]
      unfold tableNV recsNV
      rw [List.filter_cons, List.filterMap_cons]
      by_cases ho : (o == oid) = true
      · simp only [ho, if_true, List.map_cons]
        rw [show ((⟨i, o, c, v⟩ : SettingRec).name, (⟨i, o, c, v⟩ : SettingRec).value)
          = (c, v) from rfl]
        exact congrArg (fun l => (c, v) :: l) (ih (i + 1))
      · simp only [ho, if_false]
        exact ih (i + 1)

theorem filterMap_nil_of_filter_nil {α β : Type} (p : α → Bool) (f : α → Option β) :
    ∀ l : List α, l.filter p = [] →
      l.filterMap (fun a => if p a then f a else none) = [] := by
  intro l
  induction l with
  | nil => intro _; rfl
  | cons a tl ih =>
    intro h
    rw [List.filter_cons] at h
    by_cases hp : p a = true
    · rw [if_pos hp] at h
      exact absurd h (by simp)
    · rw [if_neg hp] at h
      rw [List.filterMap_cons, if_neg hp]
      exact ih h

theorem filterMap_of_filter_singleton {α β : Type} (p : α → Bool) (f : α → Option β) :
    ∀ (l : List α) (a0 : α), l.filter p = [a0] →
      l.filterMap (fun a => if p a then f a else none) = (f a0).toList := by
  intro l
  induction l with
  | nil => intro a0 h; exact absurd h (by simp)
  | cons a tl ih =>
    intro a0 h
    rw [List.filter_cons] at h
    by_cases hp : p a = true
    · rw [if_pos hp] at h
      simp only [List.cons.injEq] at h
      obtain ⟨ha, htl⟩ := h
      subst ha
      rw [List.filterMap_cons, if_pos hp,
        filterMap_nil_of_filter_nil p f tl htl]
      cases hf : f a with
      | none => rfl
      | some b => rfl
    · rw [if_neg hp] at h
      rw [List.filterMap_cons, if_neg hp]
      exact ih a0 h

theorem recsNV_append (l1 l2 : List (String × String × Option Val)) (oid : String) :
    recsNV (l1 ++ l2) oid = recsNV l1 oid ++ recsNV l2 oid := by
  unfold recsNV
  exact List.filterMap_append _ _ _

/-- One melt column restricted to one object: with a unique carrier row, it
contributes exactly that row's non-null cell. -/
theorem recsNV_melt (cols : List String) (g : Gdf) (oid : String) (r0 : Row)
    (hone : g.rows.filter (fun r => valStr (cellGet r "guid") == oid) = [r0]) :
    recsNV (meltRecs cols g) oid =
      cols.flatMap (fun c => ((cellGet r0 c).map (fun v => (c, v))).toList) := by
  induction cols with
  | nil => rfl
  | cons c tl ih =>
    rw [show meltRecs (c :: tl) g =
      g.rows.map (fun r => (valStr (cellGet r "guid"), c, cellGet r c)) ++
        meltRecs tl g from rfl]
    rw [recsNV_append, ih, List.flatMap_cons]
    refine congrArg (fun l => l ++ _) ?_
    unfold recsNV
    rw [List.filterMap_map]
    have hfn : ((fun rc => match rc with
        | (o, c2, some v) => if o == oid then some (c2, v) else none
        | (_, _, none) => none) ∘
          (fun r => (valStr (cellGet r "guid"), c, cellGet r c))) =
        fun r => if (valStr (cellGet r "guid") == oid) = true then
          ((cellGet r c).map (fun v => (c, v))) else none := by
      funext r
      show (match (valStr (cellGet r "guid"), c, cellGet r c) with
        | (o, c2, some v) => if o == oid then some (c2, v) else none
        | (_, _, none) => none) =
        if (valStr (cellGet r "guid") == oid) = true then
          ((cellGet r c).map (fun v => (c, v))) else none
      cases hv : cellGet r c with
      | none =>
        by_cases ho : (valStr (cellGet r "guid") == oid) = true
        · rw [if_pos ho]
          rfl
        · rw [if_neg ho]
      | some v =>
        by_cases ho : (valStr (cellGet r "guid") == oid) = true
        · rw [if_pos ho]
          show (if valStr (cellGet r "guid") == oid then some (c, v) else none) =
            some (c, v)
          rw [if_pos ho]
        · rw [if_neg ho]
          show (if valStr (cellGet r "guid") == oid then some (c, v) else none) =
            none
          rw [if_neg ho]
    rw [hfn]
    exact filterMap_of_filter_singleton _ _ g.rows r0 hone

theorem namesOfRow (r0 : Row) :
    ∀ cols : List String,
      (cols.flatMap (fun c => ((cellGet r0 c).map (fun v => (c, v))).toList)).map
          Prod.fst =
        cols.filter (fun c => (cellGet r0 c).isSome) := by
  intro cols
  induction cols with
  | nil => rfl
  | cons c tl ih =>
    rw [List.flatMap_cons, List.filter_cons, List.map_append, ih]
    cases hv : cellGet r0 c with
    | none => simp
    | some v => simp

/-- C3 (amended): after every sidecar update, for an object identifier
carried by exactly one feature row, the union of its setting names across
the plottable and non-plottable tables equals exactly the recognized shoebox
settings that are non-null on that row — the full fixed schema except
TemplateName while it is unassigned (its default is NaN and dropna removes
it) — and no setting name occurs in both tables. -/
theorem c3_union_is_nonnull_schema (g : Gdf) (db0 db : Db) (oid : String)
    (r0 : Row) (hupd : update_umi_sqlite3 g db0 = some db)
    (hone : g.rows.filter (fun r => valStr (cellGet r "guid") == oid) = [r0]) :
    ((tableNV db.plottable oid).map Prod.fst ++
        (tableNV db.nonplottable oid).map Prod.fst) =
      schemaCols.filter (fun c => (cellGet r0 c).isSome) ∧
    ∀ c, c ∈ (tableNV db.plottable oid).map Prod.fst →
      c ∉ (tableNV db.nonplottable oid).map Prod.fst := by
  unfold update_umi_sqlite3 toSqlReplace at hupd
  by_cases hguard :
      ((plotCols ++ nonplotCols ++ ["guid"]).all (fun c => g.cols.contains c)) = true
  · rw [if_pos hguard] at hupd
    have hdb : db = ⟨addKeys 0 (meltRecs plotCols g),
        addKeys 0 (meltRecs nonplotCols g)⟩ :=
      (Option.some.injEq _ _).mp hupd.symm
    subst hdb
    have hplot : (tableNV (addKeys 0 (meltRecs plotCols g)) oid).map Prod.fst =
        plotCols.filter (fun c => (cellGet r0 c).isSome) := by
      rw [tableNV_addKeys, recsNV_melt plotCols g oid r0 hone, namesOfRow]
    have hnonplot : (tableNV (addKeys 0 (meltRecs nonplotCols g)) oid).map Prod.fst =
        nonplotCols.filter (fun c => (cellGet r0 c).isSome) := by
      rw [tableNV_addKeys, recsNV_melt nonplotCols g oid r0 hone, namesOfRow]
    constructor
    · rw [show (Db.mk (addKeys 0 (meltRecs plotCols g))
          (addKeys 0 (meltRecs nonplotCols g))).plottable =
          addKeys 0 (meltRecs plotCols g) from rfl,
        show (Db.mk (addKeys 0 (meltRecs plotCols g))
          (addKeys 0 (meltRecs nonplotCols g))).nonplottable =
          addKeys 0 (meltRecs nonplotCols g) from rfl,
        hplot, hnonplot, ← List.filter_append]
      refine congrArg (List.filter _) ?_
      decide
    · intro c hcp hcn
      rw [show (Db.mk (addKeys 0 (meltRecs plotCols g))
          (addKeys 0 (meltRecs nonplotCols g))).plottable =
          addKeys 0 (meltRecs plotCols g) from rfl, hplot] at hcp
      rw [show (Db.mk (addKeys 0 (meltRecs plotCols g))
          (addKeys 0 (meltRecs nonplotCols g))).nonplottable =
          addKeys 0 (meltRecs nonplotCols g) from rfl, hnonplot] at hcn
      have h1 : c ∈ plotCols := (List.mem_filter.mp hcp).1
      have h2 : c ∈ nonplotCols := (List.mem_filter.mp hcn).1
      have hdisj : ∀ x ∈ plotCols, x ∉ nonplotCols := by decide
      exact hdisj c h1 h2
  · rw [if_neg hguard] at hupd
    exact absurd hupd (by simp)

/-- A one-row frame whose cells carry every recognized setting (TemplateName
assigned) plus a guid. -/
def demoNVRow : Row :=
  ⟨"0", ⟨[sqPoly 0 0 1], true⟩,
   [("guid", some (.str "b")), ("CoreDepth", some (.num 3)),
    ("Envr", some (.num 1)), ("Fdist", some (.num (1 / 100))),
    ("FloorToFloorHeight", some (.num 3)), ("PerimeterOffset", some (.num 3)),
    ("RoomWidth", some (.num 3)), ("WindowToWallRatioE", some (.num (2 / 5))),
    ("WindowToWallRatioN", some (.num (2 / 5))),
    ("WindowToWallRatioRoof", some (.num 0)),
    ("WindowToWallRatioS", some (.num (2 / 5))),
    ("WindowToWallRatioW", some (.num (2 / 5))),
    ("TemplateName", some (.str "T9")),
    ("EnergySimulatorName", some (.str "UMI Shoeboxer (default)")),
    ("FloorToFloorStrict", some (.bool true))]⟩

/-- The one-row demo frame for the sidecar-schema witness. -/
def demoNV : Gdf := ⟨schemaCols ++ ["guid"], [demoNVRow]⟩

/-- The sidecar derived from demoNV. -/
def demoNVDb : Db :=
  ⟨addKeys 0 (meltRecs plotCols demoNV), addKeys 0 (meltRecs nonplotCols demoNV)⟩

/-- Witness for C3 on the concrete one-row frame. -/
theorem c3_witness :
    update_umi_sqlite3 demoNV ⟨[], []⟩ = some demoNVDb ∧
    demoNV.rows.filter (fun r => valStr (cellGet r "guid") == "b") = [demoNVRow] ∧
    (((tableNV demoNVDb.plottable "b").map Prod.fst ++
        (tableNV demoNVDb.nonplottable "b").map Prod.fst) =
      schemaCols.filter (fun c => (cellGet demoNVRow c).isSome) ∧
    ∀ c, c ∈ (tableNV demoNVDb.plottable "b").map Prod.fst →
      c ∉ (tableNV demoNVDb.nonplottable "b").map Prod.fst) :=
  ⟨by decide, by decide,
   c3_union_is_nonnull_schema demoNV ⟨[], []⟩ demoNVDb "b" demoNVRow
     (by decide) (by decide)⟩

/-- A nested template mapping: a Python value that is either a template name
(leaf) or a dict of categorical keys to nested mappings. -/
inductive TVal where
  | leaf (s : String)
  | node (entries : List (String × TVal))

mutual

/-- dict_depth of the source: level for non-dicts and empty dicts, else the
maximum of the children's depths at level + 1. -/
def dict_depth : TVal → ℕ → ℕ
  | .leaf _, level => level
  | .node [], level => level
  | .node (kv :: rest), level => depthList (kv :: rest) (level + 1)

/-- Maximum of dict_depth over the entries of a dict. -/
def depthList : List (String × TVal) → ℕ → ℕ
  | [], _ => 0
  | kv :: rest, lv => max (dict_depth kv.2 lv) (depthList rest lv)

end

/-- A mapping uniformly nested to the given height: height 1 is a leaf,
height k+2 a nonempty dict whose values all have height k+1. -/
def uniformB : ℕ → TVal → Bool
  | 1, .leaf _ => true
  | (k + 2), .node es => !es.isEmpty && es.all (fun kv => uniformB (k + 1) kv.2)
  | _, _ => false

/-- Flattening of a 1-level mapping (dict_depth 2): pd.Series(map). -/
def flatten1 (es : List (String × TVal)) : Option (List (List String × String)) :=
  es.mapM (fun kv : String × TVal => match kv.2 with
    | .leaf s => some ([kv.1], s)
    | _ => none)

/-- Flattening of a 2-level mapping (dict_depth 3):
pd.DataFrame(map).stack().swaplevel() — key tuples (outer, inner).  The
relational content (set of key-tuple rows) is modelled; pandas emits them in
stack order, which is immaterial under key uniqueness. -/
def flatten2 (es : List (String × TVal)) : Option (List (List String × String)) :=
  (es.mapM (fun kv : String × TVal => match kv.2 with
    | .node inner => inner.mapM (fun kv2 : String × TVal => match kv2.2 with
        | .leaf s => some ([kv.1, kv2.1], s)
        | _ => none)
    | _ => none)).map List.flatten

/-- Flattening of a 3-level mapping (dict_depth 4). -/
def flatten3 (es : List (String × TVal)) : Option (List (List String × String)) :=
  (es.mapM (fun kv : String × TVal => match kv.2 with
    | .node mid => (mid.mapM (fun kv2 : String × TVal => match kv2.2 with
        | .node inner => inner.mapM (fun kv3 : String × TVal => match kv3.2 with
            | .leaf s => some ([kv.1, kv2.1, kv3.1], s)
            | _ => none)
        | _ => none)).map List.flatten
    | _ => none)).map List.flatten

/-- on_frame of from_gis: dispatch on dict_depth; depths outside 2..4 raise
NotImplementedError (none). -/
def on_frame (m : TVal) : Option (List (List String × String)) :=
  match m with
  | .leaf _ => none
  | .node es =>
    let d := dict_depth (.node es) 1
    if d = 2 then flatten1 es
    else if d = 3 then flatten2 es
    else if d = 4 then flatten3 es
    else none

/-- The tuple of join-column cells of a feature row. -/
def joinKey (cols : List String) (r : Row) : List (Option Val) :=
  cols.map (cellGet r)

/-- Whether a flattened-table row matches a feature row on the join
columns. -/
def rowMatches (cols : List String) (kv : List String × String) (r : Row) : Bool :=
  joinKey cols r == kv.1.map (fun s => some (.str s))

/-- The left join of from_gis: every feature row is joined against the
flattened table; unmatched rows keep a null TemplateName, matched rows get
one output row per matching table row (pandas join semantics). -/
def joinTemplate (cols : List String) (tbl : List (List String × String))
    (g : Gdf) : Gdf :=
  ⟨addCol g.cols "TemplateName",
   g.rows.flatMap (fun r =>
     match tbl.filter (fun kv => rowMatches cols kv r) with
     | [] => [setCell r "TemplateName" none]
     | ms => ms.map (fun kv => setCell r "TemplateName" (some (.str kv.2))))⟩

/-- UmiProject.from_gis: resolve the template map onto the features, then
ingest (reading the vector file is the external I/O collaborator). -/
def from_gis (hcol : String) (fid? : Option String) (cols : List String)
    (m : TVal) (g : Gdf) : Option (UmiProject × ℕ) :=
  (on_frame m).bind (fun tbl => from_gdf hcol fid? (joinTemplate cols tbl g))

theorem depthList_const (c : ℕ) :
    ∀ (es : List (String × TVal)) (lv : ℕ), es ≠ [] →
      (∀ kv ∈ es, dict_depth kv.2 lv = c) → depthList es lv = c := by
  intro es
  induction es with
  | nil => intro lv h _; exact absurd rfl h
  | cons kv rest ih =>
    intro lv _ hall
    rw [show depthList (kv :: rest) lv =
      max (dict_depth kv.2 lv) (depthList rest lv) from rfl]
    rw [hall kv (List.mem_cons_self kv rest)]
    cases rest with
    | nil =>
      rw [show depthList [] lv = 0 from rfl]
      exact Nat.max_eq_left (Nat.zero_le c)
    | cons kv2 rest2 =>
      rw [ih lv (by simp) (fun kv3 h3 => hall kv3 (List.mem_cons_of_mem kv h3))]
      exact Nat.max_self c

theorem uniform_depth :
    ∀ (k : ℕ) (m : TVal) (level : ℕ), uniformB (k + 1) m = true →
      dict_depth m level = level + k := by
  intro k
  induction k with
  | zero =>
    intro m level hu
    cases m with
    | leaf s => rfl
    | node es =>
      cases es with
      | nil => exact absurd hu (by simp [uniformB])
      | cons kv rest => exact absurd hu (by simp [uniformB])
  | succ k ih =>
    intro m level hu
    cases m with
    | leaf s =>
      exfalso
      rw [show uniformB (k + 1 + 1) (.leaf s) = false from rfl] at hu
      exact absurd hu (by simp)
    | node es =>
      rw [show uniformB (k + 1 + 1) (.node es) =
        (!es.isEmpty && es.all (fun kv => uniformB (k + 1) kv.2)) from rfl] at hu
      rw [Bool.and_eq_true] at hu
      obtain ⟨hne, hall⟩ := hu
      cases es with
      | nil => simp at hne
      | cons kv rest =>
        rw [show dict_depth (.node (kv :: rest)) level =
          depthList (kv :: rest) (level + 1) from rfl]
        rw [depthList_const (level + 1 + k) (kv :: rest) (level + 1) (by simp)
          (fun kv2 h2 => ih kv2.2 (level + 1)
            (by
              rw [List.all_eq_true] at hall
              exact hall kv2 h2))]
        omega

theorem mapM_isSome {α β : Type} (f : α → Option β) :
    ∀ l : List α, (∀ a ∈ l, (f a).isSome) → (l.mapM f).isSome := by
  intro l
  induction l with
  | nil => intro _; rfl
  | cons a tl ih =>
    intro h
    rw [List.mapM_cons]
    have ha := h a (List.mem_cons_self a tl)
    cases hfa : f a with
    | none => rw [hfa] at ha; exact absurd ha (by simp)
    | some b =>
      have htl := ih (fun x hx => h x (List.mem_cons_of_mem a hx))
      cases hm : tl.mapM f with
      | none => rw [hm] at htl; exact absurd htl (by simp)
      | some l2 => simp [hfa, hm]

theorem filter_eq_find_of_nodup {α : Type} (p : α → Bool) (key : α → List String)
    (hk : ∀ a b, p a = true → p b = true → key a = key b) :
    ∀ l : List α, (l.map key).Nodup → l.filter p = (l.find? p).toList := by
  intro l
  induction l with
  | nil => intro _; rfl
  | cons a tl ih =>
    intro hnd
    rw [List.map_cons, List.nodup_cons] at hnd
    obtain ⟨hka, hnd2⟩ := hnd
    rw [List.filter_cons, List.find?_cons]
    by_cases hp : p a = true
    · rw [if_pos hp, hp]
      rw [show (Option.some a).toList = [a] from rfl]
      have htl : tl.filter p = [] := by
        rw [List.filter_eq_nil_iff]
        intro b hb hpb
        apply hka
        rw [hk a b hp hpb]
        exact List.mem_map_of_mem key hb
      rw [htl]
    · rw [if_neg hp]
      rw [show p a = false from (Bool.not_eq_true (p a)).mp hp]
      exact ih hnd2

theorem flatMap_singleton_eq_map {α β : Type} (f : α → List β) (g : α → β) :
    ∀ l : List α, (∀ a ∈ l, f a = [g a]) → l.flatMap f = l.map g := by
  intro l
  induction l with
  | nil => intro _; rfl
  | cons a tl ih =>
    intro h
    rw [List.flatMap_cons, List.map_cons, h a (List.mem_cons_self a tl),
      ih (fun b hb => h b (List.mem_cons_of_mem a hb))]
    rfl

/-- C9: for every nested template mapping of nesting depth 1 to 3 (uniform,
with dict keys), from_gis's on_frame flattens it without error, and its left
join onto any feature collection yields exactly one row per original feature
row — a feature matching a key tuple receives the mapped template name,
an unmatched feature a null TemplateName, with no error raised. -/
theorem c9_template_mapper :
    (∀ (k : ℕ) (m : TVal), k ≤ 2 → uniformB (k + 2) m = true →
      (on_frame m).isSome) ∧
    (∀ (cols : List String) (tbl : List (List String × String)) (g : Gdf),
      (tbl.map Prod.fst).Nodup →
      (joinTemplate cols tbl g).rows = g.rows.map (fun r =>
        setCell r "TemplateName"
          ((tbl.find? (fun kv => rowMatches cols kv r)).map
            (fun kv => Val.str kv.2))) ∧
      (joinTemplate cols tbl g).rows.length = g.rows.length) := by
  constructor
  · intro k m hk hu
    cases m with
    | leaf s =>
      exfalso
      have : uniformB (k + 2) (.leaf s) = false := rfl
      rw [this] at hu
      exact absurd hu (by simp)
    | node es =>
      have hd : dict_depth (.node es) 1 = 1 + (k + 1) :=
        uniform_depth (k + 1) (.node es) 1 hu
      rw [show uniformB (k + 2) (TVal.node es) =
        (!es.isEmpty && es.all (fun kv => uniformB (k + 1) kv.2)) from rfl,
        Bool.and_eq_true, List.all_eq_true] at hu
      obtain ⟨hne, hall⟩ := hu
      rw [show on_frame (.node es) =
        (if dict_depth (.node es) 1 = 2 then flatten1 es
         else if dict_depth (.node es) 1 = 3 then flatten2 es
         else if dict_depth (.node es) 1 = 4 then flatten3 es
         else none) from rfl]
      rw [hd]
      interval_cases k
      · rw [if_pos (by norm_num)]
        apply mapM_isSome
        intro kv hkv
        have hukv := hall kv hkv
        cases hkv2 : kv.2 with
        | leaf s => rfl
        | node inner =>
          rw [hkv2] at hukv
          exact absurd hukv (by simp [uniformB])
      · rw [if_neg (by norm_num), if_pos (by norm_num)]
        unfold flatten2
        rw [Option.isSome_map']
        apply mapM_isSome
        intro kv hkv
        have hukv := hall kv hkv
        cases hkv2 : kv.2 with
        | leaf s =>
          rw [hkv2] at hukv
          exact absurd hukv (by simp [uniformB])
        | node inner =>
          rw [hkv2] at hukv
          rw [show uniformB (0 + 1 + 1) (TVal.node inner) =
            (!inner.isEmpty && inner.all (fun kv => uniformB (0 + 1) kv.2)) from rfl,
            Bool.and_eq_true, List.all_eq_true] at hukv
          obtain ⟨_, hall2⟩ := hukv
          apply mapM_isSome
          intro kv2 hkv2m
          have hu2 := hall2 kv2 hkv2m
          cases hkv22 : kv2.2 with
          | leaf s2 => rfl
          | node inner2 =>
            rw [hkv22] at hu2
            exact absurd hu2 (by simp [uniformB])
      · rw [if_neg (by norm_num), if_neg (by norm_num), if_pos (by norm_num)]
        unfold flatten3
        rw [Option.isSome_map']
        apply mapM_isSome
        intro kv hkv
        have hukv := hall kv hkv
        cases hkv2 : kv.2 with
        | leaf s =>
          rw [hkv2] at hukv
          exact absurd hukv (by simp [uniformB])
        | node mid =>
          rw [hkv2] at hukv
          rw [show uniformB (1 + 1 + 1) (TVal.node mid) =
            (!mid.isEmpty && mid.all (fun kv => uniformB (1 + 1) kv.2)) from rfl,
            Bool.and_eq_true, List.all_eq_true] at hukv
          obtain ⟨_, hallm⟩ := hukv
          rw [Option.isSome_map']
          apply mapM_isSome
          intro kv2 hkv2m
          have hu2 := hallm kv2 hkv2m
          cases hkv22 : kv2.2 with
          | leaf s2 =>
            rw [hkv22] at hu2
            exact absurd hu2 (by simp [uniformB])
          | node inner =>
            rw [hkv22] at hu2
            rw [show uniformB (1 + 1) (TVal.node inner) =
              (!inner.isEmpty && inner.all (fun kv => uniformB 1 kv.2)) from rfl,
              Bool.and_eq_true, List.all_eq_true] at hu2
            obtain ⟨_, hall3⟩ := hu2
            apply mapM_isSome
            intro kv3 hkv3m
            have hu3 := hall3 kv3 hkv3m
            cases hkv33 : kv3.2 with
            | leaf s3 => rfl
            | node inner3 =>
              rw [hkv33] at hu3
              exact absurd hu3 (by simp [uniformB])
  · intro cols tbl g hnd
    have hinj : Function.Injective (fun s : String => some (Val.str s)) := by
      intro a b h
      simpa using h
    have hrows : (joinTemplate cols tbl g).rows = g.rows.map (fun r =>
        setCell r "TemplateName"
          ((tbl.find? (fun kv => rowMatches cols kv r)).map
            (fun kv => Val.str kv.2))) := by
      unfold joinTemplate
      rw [gdfRows_mk]
      apply flatMap_singleton_eq_map
      intro r _
      have hfe : tbl.filter (fun kv => rowMatches cols kv r) =
          (tbl.find? (fun kv => rowMatches cols kv r)).toList := by
        apply filter_eq_find_of_nodup _ Prod.fst ?_ tbl hnd
        intro a b ha hb
        unfold rowMatches at ha hb
        have ha2 := eq_of_beq ha
        have hb2 := eq_of_beq hb
        have hab : a.1.map (fun s => some (Val.str s)) =
            b.1.map (fun s => some (Val.str s)) := by
          rw [← ha2, ← hb2]
        exact List.map_injective_iff.mpr hinj hab
      rw [hfe]
      cases hfind : tbl.find? (fun kv => rowMatches cols kv r) with
      | none => rfl
      | some kv => rfl
    refine ⟨hrows, ?_⟩
    rw [hrows, List.length_map]

/-- The 2-level example map of the spec. -/
def tmplMap2 : TVal :=
  .node [("Residential", .node [("Old", .leaf "T1"), ("New", .leaf "T2")])]

/-- Its flattened table. -/
def tblM2 : List (List String × String) := (on_frame tmplMap2).getD []

/-- A matching feature (Residential, Old). -/
def joinRowA : Row :=
  ⟨"0", ⟨[sqPoly 0 0 1], true⟩,
   [("UseType", some (.str "Residential")), ("Age", some (.str "Old")),
    ("Height", some (.num 10))]⟩

/-- An unmatched feature (Commercial, Old). -/
def joinRowB : Row :=
  ⟨"1", ⟨[sqPoly 3 0 1], true⟩,
   [("UseType", some (.str "Commercial")), ("Age", some (.str "Old")),
    ("Height", some (.num 10))]⟩

/-- The feature collection joined in the C9 witness. -/
def demoJoin : Gdf := ⟨["UseType", "Age", "Height"], [joinRowA, joinRowB]⟩

/-- Witness for C9: the spec's 2-level example resolves T1 for the matching
feature and null for the unmatched one, with one output row per feature. -/
theorem c9_witness :
    (on_frame tmplMap2).isSome ∧
    ((joinTemplate ["UseType", "Age"] tblM2 demoJoin).rows =
      demoJoin.rows.map (fun r => setCell r "TemplateName"
        ((tblM2.find? (fun kv => rowMatches ["UseType", "Age"] kv r)).map
          (fun kv => Val.str kv.2))) ∧
     (joinTemplate ["UseType", "Age"] tblM2 demoJoin).rows.length =
       demoJoin.rows.length) ∧
    ((joinTemplate ["UseType", "Age"] tblM2 demoJoin).rows.map
      (fun r => cellGet r "TemplateName")) = [some (.str "T1"), none] :=
  ⟨c9_template_mapper.1 1 tmplMap2 (by norm_num) (by decide),
   c9_template_mapper.2 ["UseType", "Age"] tblM2 demoJoin (by decide),
   by decide⟩

/-- Objects projection of a literal project. -/
theorem umiObjs_mk (a b : Gdf) (c : List Obj) (d : Db) :
    (UmiProject.mk a b c d).objects = c := rfl

theorem prodFst_mk {α β : Type} (a : α) (b : β) : ((a, b) : α × β).1 = a := rfl

theorem prodSnd_mk {α β : Type} (a : α) (b : β) : ((a, b) : α × β).2 = b := rfl

/-- enumFrom distributes over map. -/
theorem enumFrom_map_eq {α β : Type} (f : α → β) :
    ∀ (l : List α) (n : ℕ),
      (l.map f).enumFrom n = (l.enumFrom n).map (fun x => (x.1, f x.2)) := by
  intro l
  induction l with
  | nil => intro n; rfl
  | cons a tl ih =>
    intro n
    simp only [List.map_cons, List.enumFrom_cons]
    rw [ih (n + 1)]

/-- mapM over a list on which the function is everywhere defined. -/
theorem mapM_eq_some_map {α β : Type} (f : α → Option β) (hfn : α → β) :
    ∀ l : List α, (∀ a ∈ l, f a = some (hfn a)) → l.mapM f = some (l.map hfn) := by
  intro l
  induction l with
  | nil => intro _; rfl
  | cons a tl ih =>
    intro h
    rw [List.mapM_cons, h a (List.mem_cons_self a tl),
      ih (fun b hb => h b (List.mem_cons_of_mem a hb))]
    rfl

/-- filterMap over a list on which the function is everywhere defined. -/
theorem filterMap_eq_map_of_some {α β : Type} (f : α → Option β) (hfn : α → β) :
    ∀ l : List α, (∀ a ∈ l, f a = some (hfn a)) → l.filterMap f = l.map hfn := by
  intro l
  induction l with
  | nil => intro _; rfl
  | cons a tl ih =>
    intro h
    rw [List.filterMap_cons_some (h a (List.mem_cons_self a tl)), List.map_cons,
      ih (fun b hb => h b (List.mem_cons_of_mem a hb))]

theorem filter_eq_self_of_all {α : Type} (p : α → Bool) (l : List α)
    (h : ∀ a ∈ l, p a = true) : l.filter p = l :=
  List.filter_eq_self.mpr h

theorem any_eq_false_of_all {α : Type} (p : α → Bool) (l : List α)
    (h : ∀ a ∈ l, p a = false) : l.any p = false := by
  induction l with
  | nil => rfl
  | cons a tl ih =>
    rw [List.any_cons, h a (List.mem_cons_self a tl),
      ih (fun b hb => h b (List.mem_cons_of_mem a hb))]
    rfl

theorem contains_of_mem {c : String} {l : List String} (h : c ∈ l) :
    l.contains c = true := by
  simpa using h

theorem mem_addCol_self (cols : List String) (c : String) : c ∈ addCol cols c := by
  unfold addCol
  by_cases hc : c ∈ cols
  · rw [if_pos hc]; exact hc
  · rw [if_neg hc]
    exact List.mem_append_right _ (List.mem_singleton_self _)

/-- The serial rhino identifiers are pairwise distinct. -/
theorem mintGuid_inj (i j : ℕ) (h : mintGuid i = mintGuid j) : i = j := by
  have hd : "uuid-".data ++ List.replicate i 'x' =
      "uuid-".data ++ List.replicate j 'x' := congrArg String.data h
  have hr : List.replicate i 'x' = List.replicate j 'x' :=
    List.append_cancel_left hd
  have hl := congrArg List.length hr
  simpa using hl

/-- A list whose keys are the serial rhino identifiers from position n on. -/
def SerialKeys {α : Type} (key : α → String) (n : ℕ) (l : List α) : Prop :=
  ∀ x ∈ l.enumFrom n, key x.2 = mintGuid x.1

theorem serialKeys_tail {α : Type} (key : α → String) (n : ℕ) (a : α)
    (l : List α) (h : SerialKeys key n (a :: l)) : SerialKeys key (n + 1) l := by
  intro x hx
  exact h x (by rw [List.enumFrom_cons]; exact List.mem_cons_of_mem _ hx)

theorem serialKeys_head {α : Type} (key : α → String) (n : ℕ) (a : α)
    (l : List α) (h : SerialKeys key n (a :: l)) : key a = mintGuid n :=
  h (n, a) (by rw [List.enumFrom_cons]; exact List.mem_cons_self _ _)

/-- Mapping a key-preserving function keeps the serial-key property. -/
theorem serialKeys_map {α β : Type} (key : α → String) (key2 : β → String)
    (f : α → β) (hk : ∀ a, key2 (f a) = key a) (l : List α) (n : ℕ)
    (h : SerialKeys key n l) : SerialKeys key2 n (l.map f) := by
  intro x hx
  rw [enumFrom_map_eq] at hx
  obtain ⟨y, hy, hxy⟩ := List.mem_map.mp hx
  rw [← hxy]
  show key2 (f y.2) = mintGuid y.1
  rw [hk y.2]
  exact h y hy

/-- A positional map over an enumeration carries serial keys whenever the
generator stamps the position into the key. -/
theorem serialKeys_of_enum_map {α β : Type} (key : β → String)
    (G : ℕ × α → β) (hG : ∀ x : ℕ × α, key (G x) = mintGuid x.1) :
    ∀ (l : List α) (n : ℕ), SerialKeys key n ((l.enumFrom n).map G) := by
  intro l
  induction l with
  | nil => intro n x hx; exact absurd hx (List.not_mem_nil x)
  | cons a tl ih =>
    intro n x hx
    rw [List.enumFrom_cons, List.map_cons, List.enumFrom_cons] at hx
    rcases List.mem_cons.mp hx with h | h
    · rw [h]
      exact hG (n, a)
    · exact ih (n + 1) x h

/-- No element of a serial tail carries an earlier serial key. -/
theorem serialKeys_filter_nil {α : Type} (key : α → String) (m : ℕ) :
    ∀ (l : List α) (n : ℕ), m < n → SerialKeys key n l →
      l.filter (fun a => key a == mintGuid m) = [] := by
  intro l
  induction l with
  | nil => intro n _ _; rfl
  | cons a tl ih =>
    intro n hmn hs
    rw [List.filter_cons]
    have hne : (key a == mintGuid m) = false := by
      rw [serialKeys_head key n a tl hs]
      rw [beq_eq_false_iff_ne]
      intro he
      exact absurd (mintGuid_inj n m he) (Nat.ne_of_gt hmn)
    rw [hne]
    simp only [Bool.false_eq_true, if_false]
    exact ih (n + 1) (Nat.lt_succ_of_lt hmn) (serialKeys_tail key n a tl hs)

/-- Filtering a serial list by one of its serial keys isolates exactly the
element at that position. -/
theorem serialKeys_filter_singleton {α : Type} (key : α → String) :
    ∀ (l : List α) (n : ℕ), SerialKeys key n l →
      ∀ m : ℕ, n ≤ m → m < n + l.length →
        ∃ a : α, l.filter (fun x => key x == mintGuid m) = [a] ∧
          key a = mintGuid m ∧ a ∈ l := by
  intro l
  induction l with
  | nil =>
    intro n _ m hnm hmlt
    rw [List.length_nil, Nat.add_zero] at hmlt
    exact absurd hnm (Nat.not_le_of_lt hmlt)
  | cons a tl ih =>
    intro n hs m hnm hmlt
    rcases Nat.eq_or_lt_of_le hnm with he | hlt
    · subst he
      refine ⟨a, ?_, (serialKeys_head key n a tl hs).symm ▸ rfl, List.mem_cons_self a tl⟩
      rw [List.filter_cons]
      have hbe : (key a == mintGuid n) = true := by
        rw [serialKeys_head key n a tl hs]
        exact beq_self_eq_true _
      rw [hbe]
      simp only [if_true]
      rw [serialKeys_filter_nil key n tl (n + 1) (Nat.lt_succ_self n)
        (serialKeys_tail key n a tl hs)]
    · have hne : (key a == mintGuid m) = false := by
        rw [serialKeys_head key n a tl hs]
        rw [beq_eq_false_iff_ne]
        intro he
        exact absurd (mintGuid_inj n m he) (Nat.ne_of_lt hlt)
      obtain ⟨a2, hf, hk, hm⟩ := ih (n + 1) (serialKeys_tail key n a tl hs) m hlt
        (by rw [List.length_cons] at hmlt; omega)
      refine ⟨a2, ?_, hk, List.mem_cons_of_mem a hm⟩
      rw [List.filter_cons, hne]
      simp only [Bool.false_eq_true, if_false]
      exact hf

/-- Positions of an enumeration are bounded by the start plus the length. -/
theorem enumFrom_fst_lt {α : Type} :
    ∀ (l : List α) (n : ℕ) (x : ℕ × α), x ∈ l.enumFrom n →
      x.1 < n + l.length := by
  intro l
  induction l with
  | nil => intro n x hx; exact absurd hx (List.not_mem_nil x)
  | cons a tl ih =>
    intro n x hx
    rw [List.enumFrom_cons] at hx
    rcases List.mem_cons.mp hx with h | h
    · rw [h]
      simp
    · have := ih (n + 1) x h
      rw [List.length_cons]
      omega

/-- The element sitting at a serial position is the one the filter isolates. -/
theorem serialKeys_filter_at {α : Type} [DecidableEq α] (key : α → String)
    (l : List α) (hs : SerialKeys key 0 l) (x : ℕ × α) (hx : x ∈ l.enum) :
    l.filter (fun a => key a == mintGuid x.1) = [x.2] := by
  have hxl : x.2 ∈ l := mem_enum_snd l x hx
  have hlen : x.1 < l.length := by
    have := enumFrom_fst_lt l 0 x hx
    omega
  obtain ⟨a, hf, hk, _⟩ := serialKeys_filter_singleton key l 0 hs x.1
    (Nat.zero_le _) (by omega)
  have hpred : (key x.2 == mintGuid x.1) = true := by
    rw [hs x hx]
    exact beq_self_eq_true _
  have hxmem : x.2 ∈ l.filter (fun a => key a == mintGuid x.1) :=
    List.mem_filter.mpr ⟨hxl, hpred⟩
  rw [hf] at hxmem
  rw [hf, List.mem_singleton.mp hxmem]

/-- The image of an enumerated element sits at the same position in the
enumeration of the positional map. -/
theorem mem_enum_map_of_mem {α β : Type} (G : ℕ × α → β) :
    ∀ (l : List α) (n : ℕ) (x : ℕ × α), x ∈ l.enumFrom n →
      (x.1, G x) ∈ ((l.enumFrom n).map G).enumFrom n := by
  intro l
  induction l with
  | nil => intro n x hx; exact absurd hx (List.not_mem_nil x)
  | cons a tl ih =>
    intro n x hx
    rw [List.enumFrom_cons] at hx
    rw [List.enumFrom_cons, List.map_cons, List.enumFrom_cons]
    rcases List.mem_cons.mp hx with h | h
    · rw [h]
      exact List.mem_cons_self _ _
    · exact List.mem_cons_of_mem _ (ih (n + 1) x h)

/-- The column-adding phase acts on rows as one fixed per-row map that leaves
every cell of an already-declared column unchanged and never touches the
geometry or the index. -/
theorem amcFold_rows_map (ds : List (String × Option Val)) :
    ∀ acc : Gdf, ∃ F : Row → Row,
      (ds.foldl amcStep acc).rows = acc.rows.map F ∧
      (∀ r c, c ∈ acc.cols → cellGet (F r) c = cellGet r c) ∧
      (∀ r, (F r).geom = r.geom ∧ (F r).idx = r.idx) := by
  induction ds with
  | nil =>
    intro acc
    exact ⟨id, (List.map_id acc.rows).symm, fun r c _ => rfl, fun r => ⟨rfl, rfl⟩⟩
  | cons d tl ih =>
    intro acc
    simp only [List.foldl_cons]
    by_cases hd : d.1 ∈ acc.cols
    · have hstep : amcStep acc d = acc := by
        unfold amcStep
        rw [if_pos hd]
      rw [hstep]
      exact ih acc
    · have hstep : amcStep acc d =
          Gdf.mk (acc.cols ++ [d.1]) (acc.rows.map (fun r => setCell r d.1 d.2)) := by
        unfold amcStep
        rw [if_neg hd]
      rw [hstep]
      obtain ⟨F2, hrows, hget, hgeom⟩ :=
        ih (Gdf.mk (acc.cols ++ [d.1]) (acc.rows.map (fun r => setCell r d.1 d.2)))
      refine ⟨fun r => F2 (setCell r d.1 d.2), ?_, ?_, ?_⟩
      · rw [hrows, gdfRows_mk, List.map_map]
        rfl
      · intro r c hc
        have hc2 : c ∈ (Gdf.mk (acc.cols ++ [d.1])
            (acc.rows.map (fun r => setCell r d.1 d.2))).cols :=
          List.mem_append_left _ hc
        rw [hget (setCell r d.1 d.2) c hc2]
        exact cellGet_setCell_other _ _ _ _ (fun he => hd (he ▸ hc))
      · intro r
        obtain ⟨hg, hi⟩ := hgeom (setCell r d.1 d.2)
        exact ⟨hg, hi⟩

/-- The fillna phase never touches the geometry or the index of a row. -/
theorem fillFold_geom (ds : List (String × Option Val)) :
    ∀ r : Row, (ds.foldl fillStep r).geom = r.geom ∧
      (ds.foldl fillStep r).idx = r.idx := by
  induction ds with
  | nil => intro r; exact ⟨rfl, rfl⟩
  | cons d tl ih =>
    intro r
    simp only [List.foldl_cons]
    obtain ⟨hg, hi⟩ := ih (fillStep r d)
    rw [hg, hi]
    unfold fillStep
    by_cases hd : cellGet r d.1 = none
    · rw [if_pos hd]
      exact ⟨rfl, rfl⟩
    · rw [if_neg hd]
      exact ⟨rfl, rfl⟩

/-- A row in which every recognized setting has a binding and every NaN
setting cell has a NaN default; fillna is the identity on such rows. -/
def SchemaReady (r : Row) : Prop :=
  ∀ ad ∈ DEFAULT_SHOEBOX_SETTINGS, (lookupCell r.cells ad.1).isSome ∧
    (cellGet r ad.1 = none → ad.2 = none)

theorem schemaReady_of_fillRow (r : Row) : SchemaReady (fillRow r) := by
  intro ad had
  rw [fillRow_eq_foldl]
  exact fillFold_post DEFAULT_SHOEBOX_SETTINGS (by decide) r ad had

theorem fillRow_id_of_ready (r : Row) (h : SchemaReady r) : fillRow r = r := by
  rw [fillRow_eq_foldl]
  exact fillFold_id DEFAULT_SHOEBOX_SETTINGS r h

theorem cellGet_translateRow (v : Pt) (r : Row) (c : String) :
    cellGet (translateRow v r) c = cellGet r c := rfl

theorem schemaReady_translate (v : Pt) (r : Row) (h : SchemaReady r) :
    SchemaReady (translateRow v r) := h

/-- Writing a cell outside the recognized settings keeps a row schema-ready. -/
theorem schemaReady_setCell (r : Row) (c : String) (v : Option Val)
    (hc : ∀ ad ∈ DEFAULT_SHOEBOX_SETTINGS, ad.1 ≠ c) (h : SchemaReady r) :
    SchemaReady (setCell r c v) := by
  intro ad had
  obtain ⟨hsome, hval⟩ := h ad had
  constructor
  · rw [show (setCell r c v).cells = setCells r.cells c v from rfl]
    rw [lookupCell_setCells_other _ _ _ _ (hc ad had)]
    exact hsome
  · intro hnone
    rw [cellGet_setCell_other _ _ _ _ (hc ad had)] at hnone
    exact hval hnone

/-- Translating a polygon does not change its shoelace area sum. -/
theorem polyA2_translate (v : Pt) (pp : Polygon) :
    polyA2 (translatePoly v pp) = polyA2 pp := by
  unfold polyA2 translatePoly
  rw [ringA2_translate, List.map_map]
  refine congrArg (fun s => ringA2 pp.exterior + s) ?_
  refine congrArg List.sum ?_
  apply List.map_congr_left
  intro ring _
  exact ringA2_translate v ring

/-- The per-feature footprint area: the shoelace sum over every part of the
feature's geometry. -/
def rowArea (r : Row) : ℚ := (r.geom.parts.map polyA2).sum

/-- Translating a row does not change its footprint area. -/
theorem rowArea_translate (v : Pt) (r : Row) :
    rowArea (translateRow v r) = rowArea r := by
  unfold rowArea
  rw [show (translateRow v r).geom = translateGeom v r.geom from rfl]
  rw [show (translateGeom v r.geom).parts = r.geom.parts.map (translatePoly v) from rfl]
  rw [List.map_map]
  refine congrArg List.sum ?_
  apply List.map_congr_left
  intro pp _
  exact polyA2_translate v pp

theorem centerStage_rows (g : Gdf) :
    (centerStage g).rows = g.rows.map (translateRow (negPt (hullCentroidOf g))) := rfl

/-- A fid-stage row keeps the geometry of a source row. -/
theorem fidStage_rows_geom (fid? : Option String) (g : Gdf) :
    ∀ r ∈ (fidStage fid? g).2.rows, ∃ r0 ∈ g.rows, r.geom = r0.geom := by
  intro r hr
  cases fid? with
  | some f => exact ⟨r, hr, rfl⟩
  | none =>
    unfold fidStage at hr
    by_cases hc : g.cols.contains "fid" = true
    · rw [if_pos hc] at hr
      exact ⟨r, hr, rfl⟩
    · rw [if_neg hc] at hr
      rw [gdfRows_mk, List.mem_map] at hr
      obtain ⟨r0, hr0, hre⟩ := hr
      exact ⟨r0, hr0, by rw [← hre]; rfl⟩

/-- An exploded row keeps the validity flag of a source row. -/
theorem explode_mem_valid (g : Gdf) :
    ∀ r ∈ (explodeGdf g).rows, ∃ r0 ∈ g.rows, r.geom.valid = r0.geom.valid := by
  intro r hr
  unfold explodeGdf at hr
  rw [gdfRows_mk, List.mem_flatMap] at hr
  obtain ⟨r0, hr0, hrm⟩ := hr
  rw [List.mem_map] at hrm
  obtain ⟨pp, _, hre⟩ := hrm
  exact ⟨r0, hr0, by rw [← hre]⟩

/-- Every row reaching the extrusion step has valid geometry: the first
filter of from_gdf admits only valid rows and no later stage changes the
flag. -/
theorem g5_valid (hcol : String) (fid? : Option String) (g : Gdf)
    (g2w : Gdf × ℕ)
    (hg2w : filterValidAttrs hcol (filterValidGeoms g).1 = some g2w) :
    ∀ r ∈ (centerStage (explodeGdf (fidStage fid? g2w.1).2)).rows,
      r.geom.valid = true := by
  intro r hr
  rw [centerStage_rows, List.mem_map] at hr
  obtain ⟨r1, hr1, hre⟩ := hr
  rw [← hre]
  rw [show (translateRow (negPt (hullCentroidOf (explodeGdf (fidStage fid? g2w.1).2)))
      r1).geom.valid = r1.geom.valid from rfl]
  obtain ⟨r2, hr2, hv2⟩ := explode_mem_valid _ r1 hr1
  rw [hv2]
  obtain ⟨r3, hr3, hg3⟩ := fidStage_rows_geom fid? g2w.1 r2 hr2
  rw [hg3]
  obtain ⟨_, _, hrows⟩ := filterValidAttrs_parts hcol _ g2w hg2w
  rw [hrows] at hr3
  have hr4 := List.mem_of_mem_filter hr3
  rw [show (filterValidGeoms g).1.rows = g.rows.filter (fun r => r.geom.valid)
    from rfl] at hr4
  exact (List.mem_filter.mp hr4).2

/-- Every row paired by the brep apply step is a row of its input frame. -/
theorem brepStage_mem_row (hcol : String) (g : Gdf)
    (lb : List (Row × Option Brep)) (h : brepStage hcol g = some lb) :
    ∀ rb ∈ lb, rb.1 ∈ g.rows := by
  intro rb hrb
  obtain ⟨r, hr, hfr⟩ := mapM_some_mem _ g.rows lb h rb hrb
  rcases hq : cellGet r hcol with _ | v
  · rw [hq] at hfr
    simp at hfr
  · cases v with
    | num q =>
      rw [hq] at hfr
      rcases hparts : r.geom.parts with _ | ⟨pp, rest⟩
      · rw [hparts] at hfr
        simp at hfr
      · cases rest with
        | nil =>
          rw [hparts] at hfr
          simp only [Option.some.injEq] at hfr
          rw [← hfr]
          exact hr
        | cons pp2 rest2 =>
          rw [hparts] at hfr
          simp at hfr
    | str s =>
      rw [hq] at hfr
      simp at hfr
    | bool b =>
      rw [hq] at hfr
      simp at hfr

/-- The sidecar written by a successful update is exactly the two melted
tables of the supplied frame. -/
theorem update_eq_some (g : Gdf) (db0 db : Db)
    (h : update_umi_sqlite3 g db0 = some db) :
    db = ⟨addKeys 0 (meltRecs plotCols g), addKeys 0 (meltRecs nonplotCols g)⟩ := by
  unfold update_umi_sqlite3 at h
  by_cases hg : (plotCols ++ nonplotCols ++ ["guid"]).all
      (fun c => g.cols.contains c) = true
  · rw [if_pos hg] at h
    replace h := (Option.some.injEq _ _).mp h
    rw [← h]
    rfl
  · rw [if_neg hg] at h
    exact absurd h (by simp)

/-- Normal form of the feature table built by from_gdf: the surviving rows,
each stamped with its serial guid, passed through the fixed column-adding
map and fillna; every surviving row carries a numeric height above the
threshold, a single polygon part and valid geometry. -/
theorem pipeline_rows_shape (hcol : String) (fid? : Option String) (g : Gdf)
    (g2w : Gdf × ℕ) (lb : List (Row × Option Brep))
    (hg2w : filterValidAttrs hcol (filterValidGeoms g).1 = some g2w)
    (hlb : brepStage hcol (centerStage (explodeGdf (fidStage fid? g2w.1).2)) =
      some lb) :
    ∃ (F : Row → Row) (l5 : List Row),
      (add_default_shoebox_settings
        ⟨addCol (centerStage (explodeGdf (fidStage fid? g2w.1).2)).cols "guid",
         guidRows (filterErrored lb).1⟩).rows =
        l5.enum.map
          (fun ir => fillRow (F (setCell ir.2 "guid" (some (.str (mintGuid ir.1)))))) ∧
      (guidRows (filterErrored lb).1).length = l5.length ∧
      (∀ r c,
        c ∈ addCol (centerStage (explodeGdf (fidStage fid? g2w.1).2)).cols "guid" →
        cellGet (F r) c = cellGet r c) ∧
      (∀ r, (F r).geom = r.geom) ∧
      ∀ r ∈ l5, (∃ q : ℚ, cellGet r hcol = some (.num q) ∧ epsHeight < q) ∧
        (∃ pp : Polygon, r.geom.parts = [pp]) ∧ r.geom.valid = true := by
  obtain ⟨F, hrowsF, hgetF, hgeomF⟩ := amcFold_rows_map DEFAULT_SHOEBOX_SETTINGS
    (Gdf.mk (addCol (centerStage (explodeGdf (fidStage fid? g2w.1).2)).cols "guid")
      (guidRows (filterErrored lb).1))
  refine ⟨F, (filterErrored lb).1.map Prod.fst, ?_, ?_, ?_,
    fun r => (hgeomF r).1, ?_⟩
  · have henum : ((filterErrored lb).1.map Prod.fst).enum =
        (filterErrored lb).1.enum.map (fun x => (x.1, x.2.1)) := by
      show ((filterErrored lb).1.map Prod.fst).enumFrom 0 =
        ((filterErrored lb).1.enumFrom 0).map (fun x => (x.1, x.2.1))
      rw [enumFrom_map_eq]
    rw [add_default_rows, addMissingColumns_eq_foldl, hrowsF, gdfRows_mk,
      guidRows_def, henum, List.map_map, List.map_map, List.map_map]
    refine List.map_congr_left ?_
    intro x _
    simp only [Function.comp_apply]
  · rw [guidRows_def, List.length_map, List.enum_length, List.length_map]
  · intro r c hc
    exact hgetF r c hc
  · intro r hr
    rw [List.mem_map] at hr
    obtain ⟨rb, hrb, hfst⟩ := hr
    rw [filterErrored_fst, List.mem_filterMap] at hrb
    obtain ⟨rb0, hrb0, hmap⟩ := hrb
    obtain ⟨q, pp, hq, hparts, hbrep⟩ := brepStage_mem hcol _ lb hlb rb0 hrb0
    rcases hb2 : rb0.2 with _ | b0
    · rw [hb2] at hmap
      simp at hmap
    · rw [hb2] at hmap
      simp only [Option.map_some', Option.some.injEq] at hmap
      have hr1 : rb0.1 = r := by
        rw [← hfst, ← hmap]
      have hsome : geom_to_brep pp q = some b0 := hbrep.symm.trans hb2
      have hgt := geom_to_brep_some_height pp q b0 hsome
      refine ⟨⟨q, by rw [← hr1]; exact hq, by rw [← hgt.2]; exact hgt.1⟩,
        ⟨pp, by rw [← hr1]; exact hparts⟩, ?_⟩
      rw [← hr1]
      exact g5_valid hcol fid? g g2w hg2w rb0.1
        (brepStage_mem_row hcol _ lb hlb rb0 hrb0)

/-- The pair the brep apply step produces for one row (defined whenever the
height cell is numeric and the geometry is single-part). -/
def brepOf (hcol : String) (r : Row) : Row × Option Brep :=
  (r, match cellGet r hcol, r.geom.parts with
      | some (.num q), [p] => geom_to_brep p q
      | _, _ => none)

/-- The brep of a row whose extrusion succeeds. -/
def brepVal (hcol : String) (r : Row) : Brep :=
  ((brepOf hcol r).2).getD ⟨⟨[], []⟩, 0⟩

/-- from_gdf's first filter is the identity on an all-valid frame. -/
theorem filterValidGeoms_id (g : Gdf) (h : ∀ r ∈ g.rows, r.geom.valid = true) :
    filterValidGeoms g = (g, 0) := by
  unfold filterValidGeoms
  rw [filter_eq_self_of_all _ _ h]
  rw [any_eq_false_of_all _ _ (fun r hr => by rw [h r hr]; rfl)]
  rfl

/-- from_gdf's second filter is the identity on a frame whose height cells
are all present. -/
theorem filterValidAttrs_id (hcol : String) (g : Gdf) (hmem : hcol ∈ g.cols)
    (h : ∀ r ∈ g.rows, (cellGet r hcol).isSome = true) :
    filterValidAttrs hcol g = some (g, 0) := by
  unfold filterValidAttrs
  rw [if_pos (contains_of_mem hmem)]
  rw [filter_eq_self_of_all _ _ h]
  rw [any_eq_false_of_all _ _ (fun r hr => by
    cases hc : cellGet r hcol with
    | none =>
      have hsr := h r hr
      rw [hc] at hsr
      exact absurd hsr (by simp)
    | some v => rfl)]
  rfl

/-- explode is the identity on a single-part frame. -/
theorem explodeGdf_id (g : Gdf) (h : ∀ r ∈ g.rows, ∃ pp, r.geom.parts = [pp]) :
    explodeGdf g = g := by
  unfold explodeGdf
  rw [flatMap_singleton_eq_map _ id g.rows ?_]
  · rw [List.map_id]
  · intro r hr
    obtain ⟨pp, hpp⟩ := h r hr
    have he : ({ r with geom := ⟨[pp], r.geom.valid⟩ } : Row) = r := by
      rw [← hpp]
    rw [hpp]
    rw [show (([pp] : List Polygon).map
      (fun p => ({ r with geom := ⟨[p], r.geom.valid⟩ } : Row))) =
      [{ r with geom := ⟨[pp], r.geom.valid⟩ }] from rfl]
    rw [he]
    rfl

/-- from_gdf with its let-bindings inlined. -/
theorem from_gdf_def (hcol : String) (fid? : Option String) (g : Gdf) :
    from_gdf hcol fid? g =
      (filterValidAttrs hcol (filterValidGeoms g).1).bind (fun g2w =>
        (brepStage hcol (centerStage (explodeGdf (fidStage fid? g2w.1).2))).bind
          (fun lb =>
            if (centerStage (explodeGdf (fidStage fid? g2w.1).2)).cols.contains
                (fidStage fid? g2w.1).1 then
              (update_umi_sqlite3
                (add_default_shoebox_settings
                  ⟨addCol (centerStage (explodeGdf (fidStage fid? g2w.1).2)).cols
                    "guid",
                   guidRows (filterErrored lb).1⟩) ⟨[], []⟩).map (fun db =>
                (⟨explodeGdf (fidStage fid? g2w.1).2,
                  add_default_shoebox_settings
                    ⟨addCol (centerStage (explodeGdf (fidStage fid? g2w.1).2)).cols
                      "guid",
                     guidRows (filterErrored lb).1⟩,
                  buildingObjs (fidStage fid? g2w.1).1
                      (guidRows (filterErrored lb).1) ++
                    [siteBoundaryObj (guidRows (filterErrored lb).1).length],
                  db⟩,
                 (filterValidGeoms g).2 + g2w.2 + (filterErrored lb).2))
            else none)) := rfl

theorem from_gdf_intro (hcol : String) (fid? : Option String) (g : Gdf)
    (g2w : Gdf × ℕ) (lb : List (Row × Option Brep)) (db : Db)
    (h1 : filterValidAttrs hcol (filterValidGeoms g).1 = some g2w)
    (h2 : brepStage hcol (centerStage (explodeGdf (fidStage fid? g2w.1).2)) =
      some lb)
    (h3 : (centerStage (explodeGdf (fidStage fid? g2w.1).2)).cols.contains
      (fidStage fid? g2w.1).1 = true)
    (h4 : update_umi_sqlite3
      (add_default_shoebox_settings
        ⟨addCol (centerStage (explodeGdf (fidStage fid? g2w.1).2)).cols "guid",
         guidRows (filterErrored lb).1⟩) ⟨[], []⟩ = some db) :
    from_gdf hcol fid? g =
      some (⟨explodeGdf (fidStage fid? g2w.1).2,
             add_default_shoebox_settings
               ⟨addCol (centerStage (explodeGdf (fidStage fid? g2w.1).2)).cols "guid",
                guidRows (filterErrored lb).1⟩,
             buildingObjs (fidStage fid? g2w.1).1 (guidRows (filterErrored lb).1) ++
               [siteBoundaryObj (guidRows (filterErrored lb).1).length],
             db⟩,
            (filterValidGeoms g).2 + g2w.2 + (filterErrored lb).2) := by
  rw [from_gdf_def, h1, Option.some_bind, h2, Option.some_bind, if_pos h3, h4,
    Option.map_some']

/-- The centering shift applied when the archive of a project is re-ingested. -/
def reopenShift (p : UmiProject) : Pt :=
  negPt (hullCentroidOf (readMirror (save p)))

/-- The row produced for one (position, row) pair of the saved feature table
when the archive is reopened: the id column is materialized from the index,
the frame is recentred and a fresh serial guid is stamped. -/
def reopenRow (p : UmiProject) (ir : ℕ × Row) : Row :=
  setCell (translateRow (reopenShift p) (setCell ir.2 "id" (some (.str ir.2.idx))))
    "guid" (some (.str (mintGuid ir.1)))

/-- The feature rows of the reopened project. -/
def reopenRows (p : UmiProject) : List Row :=
  p.gdf_3dm.rows.enum.map (reopenRow p)

/-- The feature table of the reopened project. -/
def reopenGdf (p : UmiProject) : Gdf :=
  ⟨addCol (addCol p.gdf_3dm.cols "id") "guid", reopenRows p⟩

theorem schema_ne_id : ∀ ad ∈ DEFAULT_SHOEBOX_SETTINGS, ad.1 ≠ "id" := by decide

theorem schema_ne_guid : ∀ ad ∈ DEFAULT_SHOEBOX_SETTINGS, ad.1 ≠ "guid" := by
  decide

theorem plotCols_sub : ∀ c ∈ plotCols, c ∈ schemaCols := by decide

theorem nonplotCols_sub : ∀ c ∈ nonplotCols, c ∈ schemaCols := by decide

theorem readMirror_cols (p : UmiProject) :
    (readMirror (save p)).cols = addCol p.gdf_3dm.cols "id" := rfl

theorem readMirror_rows (p : UmiProject) :
    (readMirror (save p)).rows =
      p.gdf_3dm.rows.map (fun r => setCell r "id" (some (.str r.idx))) := rfl

theorem translateRow_parts (v : Pt) (r : Row) :
    (translateRow v r).geom.parts = r.geom.parts.map (translatePoly v) := rfl

theorem map_id_of_all {α : Type} (f : α → α) :
    ∀ l : List α, (∀ a ∈ l, f a = a) → l.map f = l := by
  intro l
  induction l with
  | nil => intro _; rfl
  | cons a tl ih =>
    intro h
    rw [List.map_cons, h a (List.mem_cons_self a tl),
      ih (fun b hb => h b (List.mem_cons_of_mem a hb))]

/-- The project produced by reopening the archive of a project whose feature
table satisfies the invariants from_gdf establishes. -/
def reopenProject (p : UmiProject) : UmiProject :=
  ⟨readMirror (save p), reopenGdf p,
   buildingObjs "id" (reopenRows p) ++ [siteBoundaryObj (reopenRows p).length],
   ⟨addKeys 0 (meltRecs plotCols (reopenGdf p)),
    addKeys 0 (meltRecs nonplotCols (reopenGdf p))⟩⟩

theorem reopenProject_gdf (p : UmiProject) :
    (reopenProject p).gdf_3dm = reopenGdf p := rfl

theorem reopenProject_objs (p : UmiProject) :
    (reopenProject p).objects =
      buildingObjs "id" (reopenRows p) ++
        [siteBoundaryObj (reopenRows p).length] := rfl

theorem reopenProject_db (p : UmiProject) :
    (reopenProject p).db =
      ⟨addKeys 0 (meltRecs plotCols (reopenGdf p)),
       addKeys 0 (meltRecs nonplotCols (reopenGdf p))⟩ := rfl

/-- Reopening the archive of a project whose feature table satisfies the
invariants from_gdf establishes succeeds, and produces exactly the saved
rows with an id column materialized from the index, recentred and stamped
with fresh serial guids, together with the sidecar melted from them. -/
theorem reopen_spec (p : UmiProject)
    (hv : ∀ r ∈ p.gdf_3dm.rows, r.geom.valid = true)
    (hsp : ∀ r ∈ p.gdf_3dm.rows, ∃ pp : Polygon, r.geom.parts = [pp])
    (hh : ∀ r ∈ p.gdf_3dm.rows, ∃ q : ℚ,
      cellGet r "Height" = some (.num q) ∧ epsHeight < q)
    (hready : ∀ r ∈ p.gdf_3dm.rows, SchemaReady r)
    (hcols : ∀ c ∈ schemaCols, c ∈ p.gdf_3dm.cols)
    (hhc : "Height" ∈ p.gdf_3dm.cols) :
    ∃ w2 : ℕ, openProject (save p) = some (reopenProject p, w2) := by
  have hv2 : ∀ r ∈ (readMirror (save p)).rows, r.geom.valid = true := by
    intro r hr
    rw [readMirror_rows, List.mem_map] at hr
    obtain ⟨r0, hr0, hre⟩ := hr
    rw [← hre]
    exact hv r0 hr0
  have hsp2 : ∀ r ∈ (readMirror (save p)).rows, ∃ pp : Polygon,
      r.geom.parts = [pp] := by
    intro r hr
    rw [readMirror_rows, List.mem_map] at hr
    obtain ⟨r0, hr0, hre⟩ := hr
    rw [← hre]
    exact hsp r0 hr0
  have hh2 : ∀ r ∈ (readMirror (save p)).rows, ∃ q : ℚ,
      cellGet r "Height" = some (.num q) ∧ epsHeight < q := by
    intro r hr
    rw [readMirror_rows, List.mem_map] at hr
    obtain ⟨r0, hr0, hre⟩ := hr
    obtain ⟨q, hq, hgt⟩ := hh r0 hr0
    refine ⟨q, ?_, hgt⟩
    rw [← hre, cellGet_setCell_other _ _ _ _ (by decide), hq]
  have h1 : filterValidAttrs "Height" (filterValidGeoms (readMirror (save p))).1 =
      some (readMirror (save p), 0) := by
    rw [filterValidGeoms_id _ hv2, prodFst_mk]
    refine filterValidAttrs_id _ _ ?_ ?_
    · rw [readMirror_cols]
      exact mem_addCol _ _ _ hhc
    · intro r hr
      obtain ⟨q, hq, _⟩ := hh2 r hr
      rw [hq]
      rfl
  have hexp : explodeGdf (readMirror (save p)) = readMirror (save p) :=
    explodeGdf_id _ hsp2
  have hred : (fidStage (some "id")
      ((readMirror (save p), 0) : Gdf × ℕ).1).2 = readMirror (save p) := rfl
  have hbrep : brepStage "Height" (centerStage (readMirror (save p))) =
      some ((centerStage (readMirror (save p))).rows.map (brepOf "Height")) := by
    unfold brepStage
    apply mapM_eq_some_map _ (brepOf "Height")
    intro r hr
    rw [centerStage_rows, List.mem_map] at hr
    obtain ⟨r1, hr1, hre⟩ := hr
    obtain ⟨q, hq1, hgt⟩ := hh2 r1 hr1
    obtain ⟨pp, hpp⟩ := hsp2 r1 hr1
    have hq : cellGet r "Height" = some (.num q) := by
      rw [← hre, cellGet_translateRow, hq1]
    have hp : r.geom.parts =
        [translatePoly (negPt (hullCentroidOf (readMirror (save p)))) pp] := by
      rw [← hre, translateRow_parts, hpp]
      rfl
    have hb : brepOf "Height" r =
        (r, geom_to_brep
          (translatePoly (negPt (hullCentroidOf (readMirror (save p)))) pp) q) := by
      unfold brepOf
      rw [hq, hp]
    rw [hq, hp, hb]
  have h2 : brepStage "Height" (centerStage (explodeGdf (fidStage (some "id")
      ((readMirror (save p), 0) : Gdf × ℕ).1).2)) =
      some ((centerStage (readMirror (save p))).rows.map (brepOf "Height")) := by
    rw [hred, hexp]
    exact hbrep
  have h3 : ((centerStage (explodeGdf (fidStage (some "id")
      ((readMirror (save p), 0) : Gdf × ℕ).1).2)).cols.contains
        (fidStage (some "id") ((readMirror (save p), 0) : Gdf × ℕ).1).1) = true := by
    rw [hred, hexp]
    rw [show (fidStage (some "id")
      ((readMirror (save p), 0) : Gdf × ℕ).1).1 = "id" from rfl]
    rw [centerStage_cols, readMirror_cols]
    exact contains_of_mem (mem_addCol_self _ _)
  have hfe : (filterErrored ((centerStage (readMirror (save p))).rows.map
      (brepOf "Height"))).1 =
      (centerStage (readMirror (save p))).rows.map
        (fun r => (r, brepVal "Height" r)) := by
    rw [filterErrored_fst, List.filterMap_map]
    apply filterMap_eq_map_of_some
    intro r hr
    rw [centerStage_rows, List.mem_map] at hr
    obtain ⟨r1, hr1, hre⟩ := hr
    obtain ⟨q, hq1, hgt⟩ := hh2 r1 hr1
    obtain ⟨pp, hpp⟩ := hsp2 r1 hr1
    have hq : cellGet r "Height" = some (.num q) := by
      rw [← hre, cellGet_translateRow, hq1]
    have hp : r.geom.parts =
        [translatePoly (negPt (hullCentroidOf (readMirror (save p)))) pp] := by
      rw [← hre, translateRow_parts, hpp]
      rfl
    have hb2 : (brepOf "Height" r).2 = some ⟨orientPoly (translatePoly
        (negPt (hullCentroidOf (readMirror (save p)))) pp), q⟩ := by
      rw [show (brepOf "Height" r).2 =
        (match cellGet r "Height", r.geom.parts with
          | some (.num q), [pq] => geom_to_brep pq q
          | _, _ => none) from rfl]
      rw [hq, hp]
      exact geom_to_brep_tall _ q hgt
    have hbv : brepVal "Height" r = ⟨orientPoly (translatePoly
        (negPt (hullCentroidOf (readMirror (save p)))) pp), q⟩ := by
      unfold brepVal
      rw [hb2]
      rfl
    show (brepOf "Height" r).2.map (fun b => ((brepOf "Height" r).1, b)) =
      some (r, brepVal "Height" r)
    rw [hb2, Option.map_some', hbv]
    rfl
  have hcrows : (centerStage (readMirror (save p))).rows =
      p.gdf_3dm.rows.map (fun r =>
        translateRow (reopenShift p) (setCell r "id" (some (.str r.idx)))) := by
    rw [centerStage_rows, readMirror_rows, List.map_map]
    rfl
  have henum2 : ((centerStage (readMirror (save p))).rows.map
      (fun r => (r, brepVal "Height" r))).enum =
      (centerStage (readMirror (save p))).rows.enum.map
        (fun x => (x.1, (x.2, brepVal "Height" x.2))) := by
    show ((centerStage (readMirror (save p))).rows.map
      (fun r => (r, brepVal "Height" r))).enumFrom 0 =
      ((centerStage (readMirror (save p))).rows.enumFrom 0).map
        (fun x => (x.1, (x.2, brepVal "Height" x.2)))
    rw [enumFrom_map_eq]
  have henum3 : (p.gdf_3dm.rows.map (fun r =>
      translateRow (reopenShift p) (setCell r "id" (some (.str r.idx))))).enum =
      p.gdf_3dm.rows.enum.map (fun x => (x.1,
        translateRow (reopenShift p) (setCell x.2 "id" (some (.str x.2.idx))))) := by
    show (p.gdf_3dm.rows.map (fun r =>
      translateRow (reopenShift p) (setCell r "id" (some (.str r.idx))))).enumFrom 0 =
      (p.gdf_3dm.rows.enumFrom 0).map (fun x => (x.1,
        translateRow (reopenShift p) (setCell x.2 "id" (some (.str x.2.idx)))))
    rw [enumFrom_map_eq]
  have hgrows : guidRows (filterErrored
      ((centerStage (readMirror (save p))).rows.map (brepOf "Height"))).1 =
      reopenRows p := by
    rw [hfe, guidRows_def, henum2, List.map_map, hcrows, henum3, List.map_map]
    show p.gdf_3dm.rows.enum.map _ = p.gdf_3dm.rows.enum.map (reopenRow p)
    refine List.map_congr_left ?_
    intro x _
    simp only [Function.comp_apply]
    rfl
  have hXeq : (⟨addCol (centerStage (explodeGdf (fidStage (some "id")
      ((readMirror (save p), 0) : Gdf × ℕ).1).2)).cols "guid",
      guidRows (filterErrored ((centerStage (readMirror (save p))).rows.map
        (brepOf "Height"))).1⟩ : Gdf) = reopenGdf p := by
    rw [hred, hexp, centerStage_cols, readMirror_cols, hgrows]
    rfl
  have hready2 : ∀ x ∈ p.gdf_3dm.rows.enum, SchemaReady (reopenRow p x) := by
    intro x hx
    have h0 := hready x.2 (mem_enum_snd _ x hx)
    unfold reopenRow
    apply schemaReady_setCell _ _ _ schema_ne_guid
    apply schemaReady_translate
    exact schemaReady_setCell _ _ _ schema_ne_id h0
  have hamc : addMissingColumns (reopenGdf p) = reopenGdf p := by
    rw [addMissingColumns_eq_foldl]
    apply amcFold_id
    intro ad had
    have hmem : ad.1 ∈ schemaCols := List.mem_map_of_mem Prod.fst had
    exact mem_addCol _ _ _ (mem_addCol _ _ _ (hcols ad.1 hmem))
  have hfill : (reopenRows p).map fillRow = reopenRows p := by
    apply map_id_of_all
    intro r hr
    rw [show reopenRows p = p.gdf_3dm.rows.enum.map (reopenRow p) from rfl,
      List.mem_map] at hr
    obtain ⟨x, hx, hre⟩ := hr
    rw [← hre]
    exact fillRow_id_of_ready _ (hready2 x hx)
  have haddid : add_default_shoebox_settings (reopenGdf p) = reopenGdf p := by
    rw [add_default_def, hamc]
    rw [show (reopenGdf p).rows = reopenRows p from rfl, hfill]
    rfl
  have hguard : ((plotCols ++ nonplotCols ++ ["guid"]).all
      (fun c => (reopenGdf p).cols.contains c)) = true := by
    rw [List.all_eq_true]
    intro c hc
    apply contains_of_mem
    rcases List.mem_append.mp hc with hc1 | hc2
    · rcases List.mem_append.mp hc1 with hp1 | hp2
      · exact mem_addCol _ _ _ (mem_addCol _ _ _ (hcols c (plotCols_sub c hp1)))
      · exact mem_addCol _ _ _ (mem_addCol _ _ _ (hcols c (nonplotCols_sub c hp2)))
    · rw [List.mem_singleton.mp hc2]
      exact mem_addCol_self _ _
  have h4base : update_umi_sqlite3 (reopenGdf p) ⟨[], []⟩ =
      some ⟨addKeys 0 (meltRecs plotCols (reopenGdf p)),
            addKeys 0 (meltRecs nonplotCols (reopenGdf p))⟩ := by
    unfold update_umi_sqlite3
    rw [if_pos hguard]
    rfl
  have h4 : update_umi_sqlite3 (add_default_shoebox_settings
      (⟨addCol (centerStage (explodeGdf (fidStage (some "id")
        ((readMirror (save p), 0) : Gdf × ℕ).1).2)).cols "guid",
       guidRows (filterErrored ((centerStage (readMirror (save p))).rows.map
         (brepOf "Height"))).1⟩ : Gdf)) ⟨[], []⟩ =
      some ⟨addKeys 0 (meltRecs plotCols (reopenGdf p)),
            addKeys 0 (meltRecs nonplotCols (reopenGdf p))⟩ := by
    rw [hXeq, haddid]
    exact h4base
  have hmain := from_gdf_intro "Height" (some "id") (readMirror (save p))
    (readMirror (save p), 0)
    ((centerStage (readMirror (save p))).rows.map (brepOf "Height"))
    ⟨addKeys 0 (meltRecs plotCols (reopenGdf p)),
     addKeys 0 (meltRecs nonplotCols (reopenGdf p))⟩ h1 h2 h3 h4
  rw [hXeq, haddid, hgrows, hred, hexp,
    show (fidStage (some "id") ((readMirror (save p), 0) : Gdf × ℕ).1).1 = "id"
      from rfl] at hmain
  exact ⟨_, hmain⟩

/-- The guid text of a feature row (the object identifier the sidecar and the
3dm objects use). -/
def rowOid (r : Row) : String := valStr (cellGet r "guid")

/-- The layers of the geometry-document objects carrying one identifier. -/
def layersOf (p : UmiProject) (oid : String) : List String :=
  (p.objects.filter (fun o => o.oid == oid)).map (fun o => o.layer)

/-- The (name, value) setting pairs the sidecar stores for one identifier. -/
def nvOf (p : UmiProject) (oid : String) : List (String × Val) :=
  tableNV p.db.plottable oid ++ tableNV p.db.nonplottable oid

/-- The (layer, setting-name, setting-value) triples of one feature row. -/
def rowTriples (p : UmiProject) (r : Row) : List (String × String × Val) :=
  (layersOf p (rowOid r)).flatMap (fun lay =>
    (nvOf p (rowOid r)).map (fun nv => (lay, nv.1, nv.2)))

/-- The per-feature triple lists of a project, in feature order. -/
def tripleListOf (p : UmiProject) : List (List (String × String × Val)) :=
  p.gdf_3dm.rows.map (rowTriples p)

/-- The per-feature footprint areas of a project, in feature order. -/
def areaListOf (p : UmiProject) : List ℚ :=
  p.gdf_3dm.rows.map rowArea

theorem schemaCols_ne_guid : ∀ c ∈ schemaCols, c ≠ "guid" := by decide

theorem schemaCols_ne_id : ∀ c ∈ schemaCols, c ≠ "id" := by decide

theorem buildingObjs_layer (fid : String) (rows : List Row) :
    ∀ o ∈ buildingObjs fid rows, o.layer = "umi::Buildings" := by
  intro o ho
  unfold buildingObjs at ho
  rw [List.mem_map] at ho
  obtain ⟨r, _, hre⟩ := ho
  rw [← hre]

theorem buildingObjs_length (fid : String) (rows : List Row) :
    (buildingObjs fid rows).length = rows.length := by
  unfold buildingObjs
  rw [List.length_map]

theorem map_eq_enum_map {α β : Type} (f : α → β) (l : List α) :
    l.map f = l.enum.map (fun x => f x.2) := by
  conv_lhs => rw [← List.enum_map_snd l]
  rw [List.map_map]
  rfl

/-- The objects on one serial identifier among the buildings plus the site
boundary: exactly the building at that position, on the buildings layer. -/
theorem layersOf_buildings (objsA : List Obj) (n m : ℕ)
    (hser : SerialKeys (fun o : Obj => o.oid) 0 objsA)
    (hbl : ∀ o ∈ objsA, o.layer = "umi::Buildings")
    (hm : m < objsA.length) (hnm : m < n) :
    ((objsA ++ [siteBoundaryObj n]).filter
      (fun o => o.oid == mintGuid m)).map (fun o => o.layer) =
      ["umi::Buildings"] := by
  rw [List.filter_append]
  obtain ⟨ob, hobf, hobk, hobm⟩ := serialKeys_filter_singleton
    (fun o : Obj => o.oid) objsA 0 hser m (Nat.zero_le _) (by omega)
  have hsite : ((siteBoundaryObj n).oid == mintGuid m) = false := by
    rw [show (siteBoundaryObj n).oid = mintGuid n from rfl, beq_eq_false_iff_ne]
    intro he
    exact absurd (mintGuid_inj n m he) (Nat.ne_of_gt hnm)
  have hfs : List.filter (fun o => o.oid == mintGuid m) [siteBoundaryObj n] = [] := by
    simp [hsite]
  rw [hobf, hfs, List.append_nil,
    show ([ob].map (fun o => o.layer)) = [ob.layer] from rfl, hbl ob hobm]

/-- C1 (amended): for every project built by batch ingestion over the height
column the re-ingestion path reads ("Height"), open(save(P)) succeeds and
yields a project with the same number of surviving features, the same
per-feature list of (layer, setting-name, setting-value) triples, and
exactly the same per-feature footprint areas (so in particular within any
relative tolerance); identifiers are regenerated serially on both sides. -/
theorem c1_round_trip (fid? : Option String) (g : Gdf) (p : UmiProject) (w : ℕ)
    (h : from_gdf "Height" fid? g = some (p, w)) :
    ∃ (p2 : UmiProject) (w2 : ℕ),
      openProject (save p) = some (p2, w2) ∧
      p2.gdf_3dm.rows.length = p.gdf_3dm.rows.length ∧
      tripleListOf p2 = tripleListOf p ∧
      areaListOf p2 = areaListOf p := by
  obtain ⟨g2w, lb, db, hg2w, hlb, hguard, hdb, hp, hw⟩ :=
    from_gdf_eq_some "Height" fid? g p w h
  obtain ⟨F, l5, hrowsNF, hlen6, hFget, hFgeom, hl5⟩ :=
    pipeline_rows_shape "Height" fid? g g2w lb hg2w hlb
  have hg3 : p.gdf_3dm = add_default_shoebox_settings
      ⟨addCol (centerStage (explodeGdf (fidStage fid? g2w.1).2)).cols "guid",
       guidRows (filterErrored lb).1⟩ := by
    rw [hp, umiGdf3dm_mk]
  have hprows : p.gdf_3dm.rows = l5.enum.map
      (fun ir => fillRow (F (setCell ir.2 "guid" (some (.str (mintGuid ir.1)))))) := by
    rw [hg3]
    exact hrowsNF
  have hguidmem : "guid" ∈
      addCol (centerStage (explodeGdf (fidStage fid? g2w.1).2)).cols "guid" :=
    mem_addCol_self _ _
  have hcolmem : "Height" ∈
      addCol (centerStage (explodeGdf (fidStage fid? g2w.1).2)).cols "guid" := by
    apply mem_addCol
    rw [centerStage_cols, explodeGdf_cols]
    obtain ⟨hc1, hc2, _⟩ := filterValidAttrs_parts "Height" _ g2w hg2w
    exact fidStage_cols_super fid? g2w.1 (by rw [hc1]; exact hc2)
  have hgeomphi : ∀ x : ℕ × Row,
      (fillRow (F (setCell x.2 "guid" (some (.str (mintGuid x.1)))))).geom =
        x.2.geom := by
    intro x
    rw [fillRow_eq_foldl, (fillFold_geom DEFAULT_SHOEBOX_SETTINGS _).1, hFgeom]
    rfl
  have hmem_shape : ∀ r ∈ p.gdf_3dm.rows, ∃ x ∈ l5.enum,
      fillRow (F (setCell x.2 "guid" (some (.str (mintGuid x.1))))) = r := by
    intro r hr
    rw [hprows, List.mem_map] at hr
    exact hr
  have hv : ∀ r ∈ p.gdf_3dm.rows, r.geom.valid = true := by
    intro r hr
    obtain ⟨x, hx, hre⟩ := hmem_shape r hr
    rw [← hre, hgeomphi]
    exact (hl5 x.2 (mem_enum_snd _ x hx)).2.2
  have hsp : ∀ r ∈ p.gdf_3dm.rows, ∃ pp : Polygon, r.geom.parts = [pp] := by
    intro r hr
    obtain ⟨x, hx, hre⟩ := hmem_shape r hr
    obtain ⟨pp, hpp⟩ := (hl5 x.2 (mem_enum_snd _ x hx)).2.1
    refine ⟨pp, ?_⟩
    rw [← hre, hgeomphi]
    exact hpp
  have hh : ∀ r ∈ p.gdf_3dm.rows, ∃ q : ℚ,
      cellGet r "Height" = some (.num q) ∧ epsHeight < q := by
    intro r hr
    obtain ⟨x, hx, hre⟩ := hmem_shape r hr
    obtain ⟨⟨q, hq, hgt⟩, _, _⟩ := hl5 x.2 (mem_enum_snd _ x hx)
    refine ⟨q, ?_, hgt⟩
    rw [← hre, fillRow_eq_foldl]
    apply fillFold_get_preserve
    rw [hFget _ _ hcolmem, cellGet_setCell_other _ _ _ _ (by decide), hq]
  have hready : ∀ r ∈ p.gdf_3dm.rows, SchemaReady r := by
    intro r hr
    obtain ⟨x, _, hre⟩ := hmem_shape r hr
    rw [← hre]
    exact schemaReady_of_fillRow _
  have hpcols : ∀ c ∈ schemaCols, c ∈ p.gdf_3dm.cols := by
    intro c hc
    rw [hg3, add_default_cols, addMissingColumns_eq_foldl]
    obtain ⟨ad, had, hadc⟩ := List.mem_map.mp hc
    rw [← hadc]
    exact amcFold_cols_mem _ _ ad had
  have hhcp : "Height" ∈ p.gdf_3dm.cols := by
    rw [hg3, add_default_cols, addMissingColumns_eq_foldl]
    exact amcFold_cols_mono _ _ hcolmem
  obtain ⟨w2, hopen⟩ := reopen_spec p hv hsp hh hready hpcols hhcp
  have hlen5 : p.gdf_3dm.rows.length = l5.length := by
    rw [hprows, List.length_map, List.enum_length]
  have hGphi : ∀ x : ℕ × Row,
      rowOid (fillRow (F (setCell x.2 "guid" (some (.str (mintGuid x.1)))))) =
        mintGuid x.1 := by
    intro x
    have hcg : cellGet (fillRow (F (setCell x.2 "guid"
        (some (.str (mintGuid x.1)))))) "guid" =
        some (.str (mintGuid x.1)) := by
      rw [fillRow_eq_foldl]
      apply fillFold_get_preserve
      rw [hFget _ _ hguidmem, cellGet_setCell_same]
    unfold rowOid
    rw [hcg]
    rfl
  have hserialP : SerialKeys rowOid 0 p.gdf_3dm.rows := by
    rw [hprows]
    exact serialKeys_of_enum_map rowOid _ hGphi l5 0
  have hserialP2 : SerialKeys rowOid 0 (reopenRows p) :=
    serialKeys_of_enum_map rowOid (reopenRow p) (fun x => by
      unfold rowOid reopenRow
      rw [cellGet_setCell_same]
      rfl) p.gdf_3dm.rows 0
  have hserial6 : SerialKeys rowOid 0 (guidRows (filterErrored lb).1) := by
    rw [guidRows_def]
    exact serialKeys_of_enum_map rowOid _ (fun x => by
      unfold rowOid
      rw [cellGet_setCell_same]
      rfl) _ 0
  have hserialB : SerialKeys (fun o : Obj => o.oid) 0
      (buildingObjs (fidStage fid? g2w.1).1 (guidRows (filterErrored lb).1)) := by
    unfold buildingObjs
    exact serialKeys_map rowOid (fun o : Obj => o.oid)
      (fun r => ⟨valStr (cellGet r "guid"), "umi::Buildings",
        valStr (cellGet r (fidStage fid? g2w.1).1)⟩)
      (fun r => rfl) _ 0 hserial6
  have hserialB2 : SerialKeys (fun o : Obj => o.oid) 0
      (buildingObjs "id" (reopenRows p)) := by
    unfold buildingObjs
    exact serialKeys_map rowOid (fun o : Obj => o.oid)
      (fun r => ⟨valStr (cellGet r "guid"), "umi::Buildings",
        valStr (cellGet r "id")⟩)
      (fun r => rfl) _ 0 hserialP2
  refine ⟨reopenProject p, w2, hopen, ?_, ?_, ?_⟩
  · rw [reopenProject_gdf,
      show (reopenGdf p).rows = p.gdf_3dm.rows.enum.map (reopenRow p) from rfl,
      List.length_map, List.enum_length]
  · unfold tripleListOf
    rw [reopenProject_gdf,
      show (reopenGdf p).rows = p.gdf_3dm.rows.enum.map (reopenRow p) from rfl,
      List.map_map, map_eq_enum_map (rowTriples p) p.gdf_3dm.rows]
    refine List.map_congr_left ?_
    intro x hx
    simp only [Function.comp_apply]
    have hbound : x.1 < p.gdf_3dm.rows.length := by
      have := enumFrom_fst_lt _ 0 x hx
      omega
    have hoid2 : rowOid (reopenRow p x) = mintGuid x.1 := by
      unfold rowOid reopenRow
      rw [cellGet_setCell_same]
      rfl
    have hoid1 : rowOid x.2 = mintGuid x.1 := hserialP x hx
    unfold rowTriples
    rw [hoid1, hoid2]
    have hlay2 : layersOf (reopenProject p) (mintGuid x.1) = ["umi::Buildings"] := by
      unfold layersOf
      rw [reopenProject_objs]
      apply layersOf_buildings
      · exact hserialB2
      · exact buildingObjs_layer _ _
      · rw [buildingObjs_length,
          show reopenRows p = p.gdf_3dm.rows.enum.map (reopenRow p) from rfl,
          List.length_map, List.enum_length]
        exact hbound
      · rw [show reopenRows p = p.gdf_3dm.rows.enum.map (reopenRow p) from rfl,
          List.length_map, List.enum_length]
        exact hbound
    have hlay1 : layersOf p (mintGuid x.1) = ["umi::Buildings"] := by
      unfold layersOf
      rw [hp, umiObjs_mk]
      apply layersOf_buildings
      · exact hserialB
      · exact buildingObjs_layer _ _
      · rw [buildingObjs_length, hlen6, ← hlen5]
        exact hbound
      · rw [hlen6, ← hlen5]
        exact hbound
    have hone1 : p.gdf_3dm.rows.filter
        (fun r => valStr (cellGet r "guid") == mintGuid x.1) = [x.2] :=
      serialKeys_filter_at rowOid _ hserialP x hx
    have hmem2 : (x.1, reopenRow p x) ∈ (reopenRows p).enum :=
      mem_enum_map_of_mem (reopenRow p) p.gdf_3dm.rows 0 x hx
    have hone2 : (reopenGdf p).rows.filter
        (fun r => valStr (cellGet r "guid") == mintGuid x.1) = [reopenRow p x] :=
      serialKeys_filter_at rowOid _ hserialP2 (x.1, reopenRow p x) hmem2
    have hdbv := update_eq_some _ _ db hdb
    rw [← hg3] at hdbv
    have hnv1 : nvOf p (mintGuid x.1) =
        plotCols.flatMap (fun c =>
          ((cellGet x.2 c).map (fun v => (c, v))).toList) ++
        nonplotCols.flatMap (fun c =>
          ((cellGet x.2 c).map (fun v => (c, v))).toList) := by
      unfold nvOf
      rw [hp, umiDb_mk, hdbv]
      rw [show (Db.mk (addKeys 0 (meltRecs plotCols p.gdf_3dm))
        (addKeys 0 (meltRecs nonplotCols p.gdf_3dm))).plottable =
        addKeys 0 (meltRecs plotCols p.gdf_3dm) from rfl]
      rw [show (Db.mk (addKeys 0 (meltRecs plotCols p.gdf_3dm))
        (addKeys 0 (meltRecs nonplotCols p.gdf_3dm))).nonplottable =
        addKeys 0 (meltRecs nonplotCols p.gdf_3dm) from rfl]
      rw [tableNV_addKeys, tableNV_addKeys,
        recsNV_melt _ _ _ x.2 hone1, recsNV_melt _ _ _ x.2 hone1]
    have hnv2 : nvOf (reopenProject p) (mintGuid x.1) =
        plotCols.flatMap (fun c =>
          ((cellGet (reopenRow p x) c).map (fun v => (c, v))).toList) ++
        nonplotCols.flatMap (fun c =>
          ((cellGet (reopenRow p x) c).map (fun v => (c, v))).toList) := by
      unfold nvOf
      rw [reopenProject_db]
      rw [show (Db.mk (addKeys 0 (meltRecs plotCols (reopenGdf p)))
        (addKeys 0 (meltRecs nonplotCols (reopenGdf p)))).plottable =
        addKeys 0 (meltRecs plotCols (reopenGdf p)) from rfl]
      rw [show (Db.mk (addKeys 0 (meltRecs plotCols (reopenGdf p)))
        (addKeys 0 (meltRecs nonplotCols (reopenGdf p)))).nonplottable =
        addKeys 0 (meltRecs nonplotCols (reopenGdf p)) from rfl]
      rw [tableNV_addKeys, tableNV_addKeys,
        recsNV_melt _ _ _ (reopenRow p x) hone2,
        recsNV_melt _ _ _ (reopenRow p x) hone2]
    have hcellEq : ∀ c ∈ schemaCols, cellGet (reopenRow p x) c = cellGet x.2 c := by
      intro c hcs
      unfold reopenRow
      rw [cellGet_setCell_other _ _ _ _ (schemaCols_ne_guid c hcs),
        cellGet_translateRow,
        cellGet_setCell_other _ _ _ _ (schemaCols_ne_id c hcs)]
    have hpl : plotCols.flatMap (fun c =>
        ((cellGet (reopenRow p x) c).map (fun v => (c, v))).toList) =
        plotCols.flatMap (fun c =>
          ((cellGet x.2 c).map (fun v => (c, v))).toList) := by
      apply List.flatMap_congr
      intro c hc
      rw [hcellEq c (plotCols_sub c hc)]
    have hnpl : nonplotCols.flatMap (fun c =>
        ((cellGet (reopenRow p x) c).map (fun v => (c, v))).toList) =
        nonplotCols.flatMap (fun c =>
          ((cellGet x.2 c).map (fun v => (c, v))).toList) := by
      apply List.flatMap_congr
      intro c hc
      rw [hcellEq c (nonplotCols_sub c hc)]
    rw [hlay1, hlay2, hnv1, hnv2, hpl, hnpl]
  · unfold areaListOf
    rw [reopenProject_gdf,
      show (reopenGdf p).rows = p.gdf_3dm.rows.enum.map (reopenRow p) from rfl,
      List.map_map, map_eq_enum_map rowArea p.gdf_3dm.rows]
    refine List.map_congr_left ?_
    intro x _
    simp only [Function.comp_apply]
    unfold reopenRow
    rw [show rowArea (setCell (translateRow (reopenShift p)
      (setCell x.2 "id" (some (.str x.2.idx)))) "guid"
        (some (.str (mintGuid x.1)))) =
      rowArea (translateRow (reopenShift p)
        (setCell x.2 "id" (some (.str x.2.idx)))) from rfl]
    rw [rowArea_translate]
    rfl

/-- C1 counterexample: a project ingested from a frame whose height column is
named h saves fine, but open(save(P)) raises (KeyError on the hard-coded
"Height" column of open's re-ingestion) instead of yielding a project, so
the round-trip contract fails for a project produced by batch ingestion. -/
theorem c1_counterexample :
    (from_gdf "h" none demoH).map (fun pw => openProject (save pw.1)) =
      some none := by
  decide

/-- The concrete project built from demo1 (one footprint, height 10). -/
def demo1Proj : UmiProject × ℕ :=
  (from_gdf "Height" none demo1).getD (umiDefault, 0)

/-- Witness for C1 on the demo1 ingestion: the archive round trip succeeds
and preserves the feature count, the triple lists and the footprint areas. -/
theorem c1_witness :
    from_gdf "Height" none demo1 = some (demo1Proj.1, demo1Proj.2) ∧
    ∃ (p2 : UmiProject) (w2 : ℕ),
      openProject (save demo1Proj.1) = some (p2, w2) ∧
      p2.gdf_3dm.rows.length = demo1Proj.1.gdf_3dm.rows.length ∧
      tripleListOf p2 = tripleListOf demo1Proj.1 ∧
      areaListOf p2 = areaListOf demo1Proj.1 :=
  ⟨by decide, c1_round_trip none demo1 demo1Proj.1 demo1Proj.2 (by decide)⟩
